import Mathlib

/-!
# Verification of the ell GVariant reader (`src/ell/gvariant-util.c`)

This file is a shallow embedding of the GVariant signature validator and the
GVariant iterator/reader of `gvariant-util.c`, together with theorems settling
the specification claims about them.

Modelling conventions:

* C byte buffers are `List Nat` (each entry intended `< 256`); a read outside
  the list yields `0` ("zero memory" beyond the modelled buffer).  Pointer
  arithmetic that can go below the buffer start is modelled with `Int`
  addresses.
* C strings are `List Char` holding the characters before the terminating NUL;
  reading at or past the end of the list yields `'\x00'` (the terminator, and
  zero memory past it).
* `size_t` arithmetic is `Nat`; the one place where an observable wrap-around
  can occur on a success path (the `read_word_le(...) - iter->pos` subtraction
  in `next_item`) uses an explicit mod-`2^64` subtraction.
* Recursive C scans are embedded with an explicit fuel argument plus a
  distinguished out-of-fuel result, and adequacy lemmas show the chosen fuel
  is always sufficient, so the wrappers compute the C functions.
* Where the C code reads memory past its buffer or dereferences an
  uninitialised/NULL pointer, the embedding returns a distinguished `ub`
  result (or, for the validator, a separate instrumented scan records the
  past-the-end access).
-/

namespace GVariant

/-- Read one byte of the data buffer at a (possibly negative) address;
memory outside the modelled buffer reads as zero. -/
def readByte (d : List Nat) (a : Int) : Nat :=
  if 0 ≤ a then d.getD a.toNat 0 else 0

/-- Read one byte at a natural-number offset. -/
def readByteN (d : List Nat) (i : Nat) : Nat :=
  d.getD i 0

/-- Modelled from the spec: little-endian word read (`read_word_le` reads `sz`
bytes starting at `p`, least significant first; the byte-source helpers
`get_u16`/`get_u32`/`get_u64` of `util.h`, not under `src/`, behave the same
way per §6.1 "All multi-byte integers are little-endian"). -/
def read_word_le (d : List Nat) (addr : Int) : Nat → Nat
  | 0 => 0
  | n + 1 => readByte d addr + 256 * read_word_le d (addr + 1) n

/-- Two's-complement reinterpretation of an unsigned value (`get_s16`,
`get_s32`, `get_s64`). -/
def toSigned (v : Nat) (bits : Nat) : Int :=
  if v < 2 ^ (bits - 1) then (v : Int) else (v : Int) - 2 ^ bits

/-- Interpret a data byte as a character (used where the C code aims a
`char *` signature pointer into the data buffer). -/
def charOfByte (n : Nat) : Char :=
  Char.ofNat (n % 256)

/-- `size_t` subtraction `a - b`, wrapping modulo `2^64`. -/
def subSizeT (a b : Nat) : Nat :=
  (a % 2 ^ 64 + (2 ^ 64 - b % 2 ^ 64)) % 2 ^ 64

/-- Modelled from the spec: `align_len(len, boundary)` of `util.h` (not under
`src/`): "align running size up to the child's alignment" (§4.1); all
boundaries used are powers of two. -/
def align_len (n a : Nat) : Nat :=
  if a = 0 then n else (n + a - 1) / a * a

/-- `offset_length` (gvariant-util.c line 293): width in bytes of an offset
word for a frame of the given size. -/
def offset_length (size n_offsets : Nat) : Nat :=
  if size + n_offsets ≤ 0xff then 1
  else if size + n_offsets * 2 ≤ 0xffff then 2
  else if size + n_offsets * 4 ≤ 0xffffffff then 4
  else 8

/-- `memchr(start, c, n)` over the data buffer: absolute index of the first
occurrence of byte `c` in `[base, base+n)`. -/
def memchrIdx (d : List Nat) (c : Nat) : Nat → Nat → Option Nat
  | _, 0 => none
  | base, n + 1 =>
    if readByteN d base = c then some base else memchrIdx d c (base + 1) n

/-- `memrchr(start, c, n)` over the data buffer: absolute index of the last
occurrence of byte `c` in `[base, base+n)`. -/
def memrchrIdx (d : List Nat) (c : Nat) : Nat → Nat → Option Nat
  | _, 0 => none
  | base, n + 1 =>
    if readByteN d (base + n) = c then some (base + n) else memrchrIdx d c base n

/-- The character a C scan sees at the head of a string suffix: the character
itself, or the terminating NUL at the end. -/
def headChar (s : List Char) : Char :=
  s.headD '\x00'

/-! ## Signature tables (gvariant-util.c lines 41-105) -/

def simple_types : List Char := ['s', 'o', 'g', 'y', 'b', 'n', 'q', 'i', 'u', 'x', 't', 'd', 'h']

def variable_types : List Char := ['s', 'o', 'g', 'a', 'v']

def fixed_types : List Char := ['b', 'y', 'n', 'q', 'h', 'i', 'u', 'x', 't', 'd']

/-- `get_basic_alignment` (lines 53-81). -/
def get_basic_alignment (c : Char) : Nat :=
  if c = 'b' then 1
  else if c = 'y' then 1
  else if c = 'n' ∨ c = 'q' then 2
  else if c = 'i' ∨ c = 'u' then 4
  else if c = 'x' ∨ c = 't' ∨ c = 'd' then 8
  else if c = 's' ∨ c = 'g' ∨ c = 'o' then 1
  else if c = 'h' then 4
  else if c = 'v' then 8
  else 0

/-- `get_basic_fixed_size` (lines 83-105). -/
def get_basic_fixed_size (c : Char) : Nat :=
  if c = 'b' then 1
  else if c = 'y' then 1
  else if c = 'n' ∨ c = 'q' then 2
  else if c = 'i' ∨ c = 'u' then 4
  else if c = 'x' ∨ c = 't' ∨ c = 'd' then 8
  else if c = 'h' then 4
  else 0

/-! ## `validate_next_type` (lines 107-172)

The scan is embedded with fuel; `.nofuel` never occurs for the fuel the
wrapper passes (adequacy is proved below).  In the dict-entry case the C code
tests the key with `strchr(simple_types, s)`, which also matches the
terminating NUL of `simple_types`; so when `'{'` is the last character of the
string the key check passes on the terminator and the recursive call scans
past the end of the string.  The main embedding resolves that past-the-end
scan with zero memory (it reads a terminator at once and fails); the
instrumented variant `validateNTo` below records that the access happened. -/

inductive VRes where
  | ok (rest : List Char) (align : Nat)
  | fail
  | nofuel
deriving DecidableEq, Repr

/-- The continuation of the dict-entry case of `validate_next_type` (lines
133-144): given the result of validating the value type, require a closing
brace, fold in the key's alignment; propagate failure. -/
def dictClose (k : Char) : VRes → VRes
  | .ok ('\x7d' :: r2) a => .ok r2 (max (get_basic_alignment k) a)
  | .ok _ _ => .fail
  | x => x

mutual

def validateNT : Nat → List Char → VRes
  | 0, _ => .nofuel
  | f + 1, s =>
    match s with
    | [] => .fail
    | c :: rest =>
      if simple_types.contains c ∨ c = 'v' then .ok rest (get_basic_alignment c)
      else if c = 'a' then validateNT f rest
      else if c = '\x7b' then
        match rest with
        | [] =>
          -- the key read is the terminating NUL; strchr matches it and the
          -- recursion continues past the string, where zero memory fails it
          .fail
        | k :: rest2 =>
          if simple_types.contains k then dictClose k (validateNT f rest2)
          else .fail
      else if c = '(' then validateList f rest 1
      else .fail

/-- The `'('` loop of `validate_next_type` (lines 146-168), accumulating the
maximum alignment. -/
def validateList : Nat → List Char → Nat → VRes
  | 0, _, _ => .nofuel
  | f + 1, s, m =>
    match s with
    | ')' :: r => .ok r m
    | _ =>
      match validateNT f s with
      | .ok r a => validateList f r (max m a)
      | x => x

end

/-- `validate_next_type` with the fuel that (provably) always suffices. -/
def validate_next_type (s : List Char) : VRes :=
  validateNT (2 * s.length + 2) s

/-! ### Facts about `dictClose` -/

theorem dictClose_nofuel (k : Char) : dictClose k .nofuel = .nofuel := rfl

theorem dictClose_ne_nofuel {k : Char} {v : VRes} (h : v ≠ .nofuel) :
    dictClose k v ≠ .nofuel := by
  unfold dictClose
  split
  · intro hc; cases hc
  · intro hc; cases hc
  · exact h

theorem dictClose_eq_ok {k : Char} {v : VRes} {r : List Char} {a : Nat}
    (h : dictClose k v = .ok r a) :
    ∃ a', v = .ok ('\x7d' :: r) a' ∧ a = max (get_basic_alignment k) a' := by
  unfold dictClose at h
  split at h
  next r2 a' =>
    injection h with h1 h2
    subst h1; subst h2
    exact ⟨a', rfl, rfl⟩
  next => cases h
  next x hx1 hx2 =>
    subst h
    exact absurd rfl (hx2 r a)

/-! ### One-step reduction equations for the fuelled validator -/

theorem validateNT_nil (f : Nat) : validateNT (f + 1) [] = .fail := rfl

theorem validateNT_simple (f : Nat) (c : Char) (rest : List Char)
    (h : simple_types.contains c ∨ c = 'v') :
    validateNT (f + 1) (c :: rest) = .ok rest (get_basic_alignment c) := by
  simp only [validateNT, if_pos h]

theorem validateNT_a (f : Nat) (rest : List Char) :
    validateNT (f + 1) ('a' :: rest) = validateNT f rest := rfl

theorem validateNT_brace_nil (f : Nat) : validateNT (f + 1) ['\x7b'] = .fail := rfl

theorem validateNT_brace (f : Nat) (k : Char) (rest2 : List Char)
    (h : simple_types.contains k) :
    validateNT (f + 1) ('\x7b' :: k :: rest2) = dictClose k (validateNT f rest2) := by
  have he : validateNT (f + 1) ('\x7b' :: k :: rest2) =
      (if simple_types.contains k then dictClose k (validateNT f rest2)
       else .fail) := rfl
  rw [he, if_pos h]

theorem validateNT_brace_bad (f : Nat) (k : Char) (rest2 : List Char)
    (h : ¬ simple_types.contains k) :
    validateNT (f + 1) ('\x7b' :: k :: rest2) = .fail := by
  have he : validateNT (f + 1) ('\x7b' :: k :: rest2) =
      (if simple_types.contains k then dictClose k (validateNT f rest2)
       else .fail) := rfl
  rw [he, if_neg h]

theorem validateNT_paren (f : Nat) (rest : List Char) :
    validateNT (f + 1) ('(' :: rest) = validateList f rest 1 := rfl

theorem validateNT_other (f : Nat) (c : Char) (rest : List Char)
    (h1 : ¬ (simple_types.contains c ∨ c = 'v')) (h2 : c ≠ 'a')
    (h3 : c ≠ '\x7b') (h4 : c ≠ '(') :
    validateNT (f + 1) (c :: rest) = .fail := by
  simp only [validateNT]
  rw [if_neg h1, if_neg h2, if_neg h3, if_neg h4]

theorem validateList_close (f : Nat) (r : List Char) (m : Nat) :
    validateList (f + 1) (')' :: r) m = .ok r m := rfl

theorem validateList_step (f : Nat) (s : List Char) (m : Nat)
    (h : headChar s ≠ ')') :
    validateList (f + 1) s m =
      (match validateNT f s with
       | .ok r a => validateList f r (max m a)
       | x => x) := by
  match s with
  | [] => rfl
  | c :: r =>
    simp only [validateList]
    split
    next r' heq =>
      exfalso
      apply h
      cases heq
      rfl
    next => rfl

/-! ### Structural facts: consumed length, monotonicity, adequacy -/

theorem validate_ok_length :
    ∀ f, (∀ s r a, validateNT f s = .ok r a → r.length < s.length) ∧
      (∀ s m r a, validateList f s m = .ok r a → r.length < s.length) := by
  intro f
  induction f with
  | zero => constructor <;> intro s <;> intros <;> simp_all [validateNT, validateList]
  | succ f ih =>
    obtain ⟨ihNT, ihL⟩ := ih
    constructor
    · intro s r a h
      match s with
      | [] => rw [validateNT_nil] at h; cases h
      | c :: rest =>
        by_cases h1 : simple_types.contains c ∨ c = 'v'
        · rw [validateNT_simple _ _ _ h1] at h
          cases h; simp
        · by_cases h2 : c = 'a'
          · subst h2
            rw [validateNT_a] at h
            have := ihNT rest r a h
            simp only [List.length_cons]; omega
          · by_cases h3 : c = '\x7b'
            · subst h3
              match rest with
              | [] => rw [validateNT_brace_nil] at h; cases h
              | k :: rest2 =>
                by_cases hk : simple_types.contains k
                · rw [validateNT_brace f k rest2 hk] at h
                  obtain ⟨a', hv, -⟩ := dictClose_eq_ok h
                  have := ihNT rest2 _ _ hv
                  simp only [List.length_cons] at this ⊢
                  omega
                · rw [validateNT_brace_bad f k rest2 hk] at h; cases h
            · by_cases h4 : c = '('
              · subst h4
                rw [validateNT_paren] at h
                have := ihL rest 1 r a h
                simp only [List.length_cons]; omega
              · rw [validateNT_other f _ _ h1 h2 h3 h4] at h; cases h
    · intro s m r a h
      by_cases hh : headChar s = ')'
      · match s with
        | [] => exact absurd hh (by decide)
        | c :: r' =>
          have hc : c = ')' := hh
          subst hc
          rw [validateList_close] at h
          cases h; simp
      · rw [validateList_step f s m hh] at h
        cases hv : validateNT f s with
        | ok r' a' =>
          rw [hv] at h
          have h1 := ihNT _ _ _ hv
          have h2 := ihL _ _ _ _ h
          omega
        | fail => rw [hv] at h; cases h
        | nofuel => rw [hv] at h; cases h

theorem validate_mono :
    ∀ f, (∀ s, validateNT f s ≠ .nofuel → validateNT (f + 1) s = validateNT f s) ∧
      (∀ s m, validateList f s m ≠ .nofuel →
        validateList (f + 1) s m = validateList f s m) := by
  intro f
  induction f with
  | zero =>
    exact ⟨fun s h => absurd rfl h, fun s m h => absurd rfl h⟩
  | succ f ih =>
    obtain ⟨ihNT, ihL⟩ := ih
    constructor
    · intro s h
      match s with
      | [] => rfl
      | c :: rest =>
        by_cases h1 : simple_types.contains c ∨ c = 'v'
        · rw [validateNT_simple _ _ _ h1, validateNT_simple _ _ _ h1]
        · by_cases h2 : c = 'a'
          · subst h2
            rw [validateNT_a f rest] at h
            rw [validateNT_a (f + 1) rest, validateNT_a f rest]
            exact ihNT rest h
          · by_cases h3 : c = '\x7b'
            · subst h3
              match rest with
              | [] => rfl
              | k :: rest2 =>
                by_cases hk : simple_types.contains k
                · rw [validateNT_brace f k rest2 hk] at h
                  rw [validateNT_brace (f + 1) k rest2 hk,
                    validateNT_brace f k rest2 hk]
                  have hnf : validateNT f rest2 ≠ .nofuel := by
                    intro hnf
                    rw [hnf, dictClose_nofuel] at h
                    exact h rfl
                  rw [ihNT rest2 hnf]
                · rw [validateNT_brace_bad (f + 1) k rest2 hk,
                    validateNT_brace_bad f k rest2 hk]
            · by_cases h4 : c = '('
              · subst h4
                rw [validateNT_paren f rest] at h
                rw [validateNT_paren (f + 1) rest, validateNT_paren f rest]
                exact ihL rest 1 h
              · rw [validateNT_other (f + 1) _ _ h1 h2 h3 h4,
                  validateNT_other f _ _ h1 h2 h3 h4]
    · intro s m h
      by_cases hh : headChar s = ')'
      · match s with
        | [] => exact absurd hh (by decide)
        | c :: r =>
          have hc : c = ')' := hh
          subst hc
          rw [validateList_close, validateList_close]
      · rw [validateList_step f s m hh] at h
        rw [validateList_step (f + 1) s m hh, validateList_step f s m hh]
        have hnf : validateNT f s ≠ .nofuel := by
          intro hnf
          rw [hnf] at h
          exact h rfl
        rw [ihNT s hnf]
        cases hv : validateNT f s with
        | ok r a =>
          rw [hv] at h
          simp only
          exact ihL r (max m a) h
        | fail => rfl
        | nofuel => exact absurd hv hnf

theorem validateNT_stable {f g : Nat} (s : List Char) (hfg : f ≤ g)
    (h : validateNT f s ≠ .nofuel) : validateNT g s = validateNT f s := by
  induction g, hfg using Nat.le_induction with
  | base => rfl
  | succ g hfg ih =>
    rw [← ih] at h ⊢
    exact (validate_mono g).1 s h

theorem validateList_stable {f g : Nat} (s : List Char) (m : Nat) (hfg : f ≤ g)
    (h : validateList f s m ≠ .nofuel) : validateList g s m = validateList f s m := by
  induction g, hfg using Nat.le_induction with
  | base => rfl
  | succ g hfg ih =>
    rw [← ih] at h ⊢
    exact (validate_mono g).2 s m h

theorem validate_adequate :
    ∀ f, (∀ s, 2 * s.length + 2 ≤ f → validateNT f s ≠ .nofuel) ∧
      (∀ s m, 2 * s.length + 3 ≤ f → validateList f s m ≠ .nofuel) := by
  intro f
  induction f with
  | zero =>
    constructor
    · intro s hf; omega
    · intro s m hf; omega
  | succ f ih =>
    obtain ⟨ihNT, ihL⟩ := ih
    constructor
    · intro s hf
      match s with
      | [] => rw [validateNT_nil]; intro h; cases h
      | c :: rest =>
        by_cases h1 : simple_types.contains c ∨ c = 'v'
        · rw [validateNT_simple _ _ _ h1]; intro h; cases h
        · by_cases h2 : c = 'a'
          · subst h2
            rw [validateNT_a f rest]
            exact ihNT rest (by simp at hf ⊢; omega)
          · by_cases h3 : c = '\x7b'
            · subst h3
              match rest with
              | [] => rw [validateNT_brace_nil]; intro h; cases h
              | k :: rest2 =>
                by_cases hk : simple_types.contains k
                · rw [validateNT_brace f k rest2 hk]
                  exact dictClose_ne_nofuel
                    (ihNT rest2 (by simp at hf ⊢; omega))
                · rw [validateNT_brace_bad f k rest2 hk]; intro h; cases h
            · by_cases h4 : c = '('
              · subst h4
                rw [validateNT_paren f rest]
                exact ihL rest 1 (by simp at hf ⊢; omega)
              · rw [validateNT_other f _ _ h1 h2 h3 h4]; intro h; cases h
    · intro s m hf
      by_cases hh : headChar s = ')'
      · match s with
        | [] => exact absurd hh (by decide)
        | c :: r =>
          have hc : c = ')' := hh
          subst hc
          rw [validateList_close]
          intro h; cases h
      · rw [validateList_step f s m hh]
        have hnf : validateNT f s ≠ .nofuel := ihNT s (by omega)
        cases hv : validateNT f s with
        | ok r a =>
          have hlen := (validate_ok_length f).1 s r a hv
          exact ihL r (max m a) (by omega)
        | fail => intro h; cases h
        | nofuel => exact absurd hv hnf

theorem validate_next_type_ne_nofuel (s : List Char) :
    validate_next_type s ≠ .nofuel :=
  (validate_adequate (2 * s.length + 2)).1 s le_rfl

theorem validateNT_eq_wrapper {f : Nat} (s : List Char)
    (hf : 2 * s.length + 2 ≤ f) : validateNT f s = validate_next_type s := by
  unfold validate_next_type
  exact validateNT_stable s hf (validate_next_type_ne_nofuel s)

/-- The `'('` child loop entered with the fuel that always suffices. -/
def validateListW (s : List Char) (m : Nat) : VRes :=
  validateList (2 * s.length + 3) s m

theorem validateListW_ne_nofuel (s : List Char) (m : Nat) :
    validateListW s m ≠ .nofuel :=
  (validate_adequate (2 * s.length + 3)).2 s m le_rfl

theorem validateList_eq_wrapper {f : Nat} (s : List Char) (m : Nat)
    (hf : 2 * s.length + 3 ≤ f) : validateList f s m = validateListW s m := by
  unfold validateListW
  exact validateList_stable s m hf (validateListW_ne_nofuel s m)

/-! ### Equations for the wrapped validator -/

theorem vnt_nil : validate_next_type [] = .fail := rfl

theorem vnt_ok_length {s r : List Char} {a : Nat}
    (h : validate_next_type s = .ok r a) : r.length < s.length :=
  (validate_ok_length (2 * s.length + 2)).1 s r a h

theorem vlw_ok_length {s r : List Char} {m a : Nat}
    (h : validateListW s m = .ok r a) : r.length < s.length :=
  (validate_ok_length (2 * s.length + 3)).2 s m r a h

theorem vnt_fuel_cons (c : Char) (rest : List Char) :
    validate_next_type (c :: rest) = validateNT (2 * rest.length + 3 + 1) (c :: rest) := by
  unfold validate_next_type
  have : 2 * (c :: rest).length + 2 = 2 * rest.length + 3 + 1 := by
    simp [List.length_cons]; omega
  rw [this]

theorem vnt_simple {c : Char} (rest : List Char)
    (h : simple_types.contains c ∨ c = 'v') :
    validate_next_type (c :: rest) = .ok rest (get_basic_alignment c) := by
  rw [vnt_fuel_cons, validateNT_simple _ _ _ h]

theorem vnt_a (rest : List Char) :
    validate_next_type ('a' :: rest) = validate_next_type rest := by
  rw [vnt_fuel_cons, validateNT_a]
  exact validateNT_eq_wrapper rest (by omega)

theorem vnt_brace_nil : validate_next_type ['\x7b'] = .fail := rfl

theorem vnt_brace {k : Char} (rest2 : List Char)
    (h : simple_types.contains k) :
    validate_next_type ('\x7b' :: k :: rest2) =
      dictClose k (validate_next_type rest2) := by
  rw [vnt_fuel_cons, validateNT_brace _ _ _ h]
  rw [validateNT_eq_wrapper rest2 (by simp [List.length_cons]; omega)]

theorem vnt_brace_bad {k : Char} (rest2 : List Char)
    (h : ¬ simple_types.contains k) :
    validate_next_type ('\x7b' :: k :: rest2) = .fail := by
  rw [vnt_fuel_cons, validateNT_brace_bad _ _ _ h]

theorem vnt_paren (rest : List Char) :
    validate_next_type ('(' :: rest) = validateListW rest 1 := by
  rw [vnt_fuel_cons, validateNT_paren]
  exact validateList_eq_wrapper rest 1 (by omega)

theorem vnt_other {c : Char} (rest : List Char)
    (h1 : ¬ (simple_types.contains c ∨ c = 'v')) (h2 : c ≠ 'a')
    (h3 : c ≠ '\x7b') (h4 : c ≠ '(') :
    validate_next_type (c :: rest) = .fail := by
  rw [vnt_fuel_cons, validateNT_other _ _ _ h1 h2 h3 h4]

theorem vlw_close (r : List Char) (m : Nat) :
    validateListW (')' :: r) m = .ok r m := rfl

theorem vlw_step (s : List Char) (m : Nat) (h : headChar s ≠ ')') :
    validateListW s m =
      (match validate_next_type s with
       | .ok r a => validateListW r (max m a)
       | x => x) := by
  unfold validateListW
  have he : 2 * s.length + 3 = (2 * s.length + 2) + 1 := by omega
  rw [he, validateList_step _ _ _ h]
  rw [show validateNT (2 * s.length + 2) s = validate_next_type s from rfl]
  cases hv : validate_next_type s with
  | ok r a =>
    simp only
    exact validateList_eq_wrapper r (max m a) (by have := vnt_ok_length hv; omega)
  | fail => rfl
  | nofuel => rfl

/-! ### Alignments produced by the validator are powers of two -/

theorem mem_pow2_max {a b : Nat} (ha : a = 1 ∨ a = 2 ∨ a = 4 ∨ a = 8)
    (hb : b = 1 ∨ b = 2 ∨ b = 4 ∨ b = 8) :
    max a b = 1 ∨ max a b = 2 ∨ max a b = 4 ∨ max a b = 8 := by
  rcases ha with rfl | rfl | rfl | rfl <;> rcases hb with rfl | rfl | rfl | rfl <;> simp

theorem basic_align_mem {c : Char} (h : simple_types.contains c ∨ c = 'v') :
    get_basic_alignment c = 1 ∨ get_basic_alignment c = 2 ∨
      get_basic_alignment c = 4 ∨ get_basic_alignment c = 8 := by
  rcases h with h | h
  · simp only [simple_types, List.contains_cons, List.contains_nil,
      Bool.or_eq_true, beq_iff_eq, Bool.false_eq_true, or_false] at h
    rcases h with rfl | rfl | rfl | rfl | rfl | rfl | rfl | rfl | rfl | rfl | rfl | rfl | rfl
      <;> simp [get_basic_alignment]
  · subst h; simp [get_basic_alignment]

theorem validate_align :
    ∀ f, (∀ s r a, validateNT f s = .ok r a → a = 1 ∨ a = 2 ∨ a = 4 ∨ a = 8) ∧
      (∀ s m r a, (m = 1 ∨ m = 2 ∨ m = 4 ∨ m = 8) → validateList f s m = .ok r a →
        a = 1 ∨ a = 2 ∨ a = 4 ∨ a = 8) := by
  intro f
  induction f with
  | zero =>
    constructor <;> intro s <;> intros <;> simp_all [validateNT, validateList]
  | succ f ih =>
    obtain ⟨ihNT, ihL⟩ := ih
    constructor
    · intro s r a h
      match s with
      | [] => rw [validateNT_nil] at h; cases h
      | c :: rest =>
        by_cases h1 : simple_types.contains c ∨ c = 'v'
        · rw [validateNT_simple _ _ _ h1] at h
          cases h
          exact basic_align_mem h1
        · by_cases h2 : c = 'a'
          · subst h2
            rw [validateNT_a] at h
            exact ihNT rest r a h
          · by_cases h3 : c = '\x7b'
            · subst h3
              match rest with
              | [] => rw [validateNT_brace_nil] at h; cases h
              | k :: rest2 =>
                by_cases hk : simple_types.contains k
                · rw [validateNT_brace f k rest2 hk] at h
                  obtain ⟨a', hv, rfl⟩ := dictClose_eq_ok h
                  exact mem_pow2_max (basic_align_mem (Or.inl hk))
                    (ihNT rest2 _ _ hv)
                · rw [validateNT_brace_bad f k rest2 hk] at h; cases h
            · by_cases h4 : c = '('
              · subst h4
                rw [validateNT_paren] at h
                exact ihL rest 1 r a (by omega) h
              · rw [validateNT_other f _ _ h1 h2 h3 h4] at h; cases h
    · intro s m r a hm h
      by_cases hh : headChar s = ')'
      · match s with
        | [] => exact absurd hh (by decide)
        | c :: r' =>
          have hc : c = ')' := hh
          subst hc
          rw [validateList_close] at h
          cases h
          exact hm
      · rw [validateList_step f s m hh] at h
        cases hv : validateNT f s with
        | ok r' a' =>
          rw [hv] at h
          exact ihL r' (max m a') r a (mem_pow2_max hm (ihNT s r' a' hv)) h
        | fail => rw [hv] at h; cases h
        | nofuel => rw [hv] at h; cases h

theorem vnt_align {s r : List Char} {a : Nat}
    (h : validate_next_type s = .ok r a) : a = 1 ∨ a = 2 ∨ a = 4 ∨ a = 8 :=
  (validate_align (2 * s.length + 2)).1 s r a h

theorem vlw_align {s r : List Char} {m a : Nat}
    (hm : m = 1 ∨ m = 2 ∨ m = 4 ∨ m = 8)
    (h : validateListW s m = .ok r a) : a = 1 ∨ a = 2 ∨ a = 4 ∨ a = 8 :=
  (validate_align (2 * s.length + 3)).2 s m r a hm h

/-! ## Instrumented validator

The same scan, additionally reporting whether any character read happened past
the string's terminating NUL.  That happens exactly when a `'\x7b'` sits at
the end of the string: the key read `*++sig` yields the terminating NUL,
`strchr(simple_types, key)` matches the terminator of `simple_types` (so the
"dictionary keys can only be simple types" check passes), and the recursive
call `validate_next_type(sig + 1)` starts past the end of the buffer.  The
first component is the result under the zero-memory resolution of that
access; the second component is true when such an access occurred. -/

mutual

def validateNTo : Nat → List Char → VRes × Bool
  | 0, _ => (.nofuel, false)
  | f + 1, s =>
    match s with
    | [] => (.fail, false)
    | c :: rest =>
      if simple_types.contains c ∨ c = 'v' then (.ok rest (get_basic_alignment c), false)
      else if c = 'a' then validateNTo f rest
      else if c = '\x7b' then
        match rest with
        | [] => (.fail, true)
        | k :: rest2 =>
          if simple_types.contains k then
            match validateNTo f rest2 with
            | (v, o) => (dictClose k v, o)
          else (.fail, false)
      else if c = '(' then validateListo f rest 1
      else (.fail, false)

def validateListo : Nat → List Char → Nat → VRes × Bool
  | 0, _, _ => (.nofuel, false)
  | f + 1, s, m =>
    match s with
    | ')' :: r => (.ok r m, false)
    | _ =>
      match validateNTo f s with
      | (.ok r a, o) =>
        match validateListo f r (max m a) with
        | (v, o2) => (v, o || o2)
      | x => x

end

/-- The instrumented scan of one complete type, with sufficient fuel. -/
def validate_next_type_o (s : List Char) : VRes × Bool :=
  validateNTo (2 * s.length + 2) s

/-- `_gvariant_valid_signature` instrumented the same way: result under zero
memory, and whether any read went past the end of the string. -/
def validSigFo : Nat → List Char → Bool × Bool
  | 0, _ => (false, false)
  | f + 1, s =>
    match validate_next_type_o s with
    | (.ok r _, o) =>
      if headChar r = '\x00' then (true, o)
      else
        match validSigFo f r with
        | (b, o2) => (b, o || o2)
    | (_, o) => (false, o)

def _gvariant_valid_signature_o (s : List Char) : Bool × Bool :=
  validSigFo (s.length + 1) s

/-! ## The signature scanners built on `validate_next_type`
(lines 174-291) -/

/-- The do-while loop of `_gvariant_valid_signature` (lines 174-187). -/
def validSigF : Nat → List Char → Bool
  | 0, _ => false
  | f + 1, s =>
    match validate_next_type s with
    | .ok r _ => if headChar r = '\x00' then true else validSigF f r
    | _ => false

/-- `_gvariant_valid_signature` (lines 174-187). -/
def _gvariant_valid_signature (s : List Char) : Bool :=
  validSigF (s.length + 1) s

/-- The do-while loop of `_gvariant_num_children` (lines 189-205); `none`
stands for the `-1` error return. -/
def numChildrenF : Nat → List Char → Option Nat
  | 0, _ => none
  | f + 1, s =>
    match validate_next_type s with
    | .ok r _ =>
      if headChar r = '\x00' then some 1 else (numChildrenF f r).map (· + 1)
    | _ => none

def numChildrenW (s : List Char) : Option Nat :=
  numChildrenF (s.length + 1) s

/-- `_gvariant_num_children` (lines 189-205). -/
def _gvariant_num_children (s : List Char) : Int :=
  match numChildrenW s with
  | some n => (n : Int)
  | none => -1

/-- The loop of `_gvariant_get_alignment` (lines 207-223), with the running
maximum as accumulator; returns 0 when validation fails. -/
def getAlignF : Nat → List Char → Nat → Nat
  | 0, _, _ => 0
  | f + 1, s, m =>
    if headChar s = '\x00' ∨ m = 8 then m
    else
      match validate_next_type s with
      | .ok r a => getAlignF f r (max m a)
      | _ => 0

def getAlignW (s : List Char) (m : Nat) : Nat :=
  getAlignF (s.length + 1) s m

/-- `_gvariant_get_alignment` (lines 207-223). -/
def _gvariant_get_alignment (s : List Char) : Nat :=
  getAlignW s 1

/-- `_gvariant_is_fixed_size` (lines 225-235). -/
def _gvariant_is_fixed_size : List Char → Bool
  | [] => true
  | c :: r =>
    if c = '\x00' then true
    else if variable_types.contains c then false
    else _gvariant_is_fixed_size r

/-- The loop of `_gvariant_get_fixed_size` (lines 237-291) with the running
size and maximum alignment as accumulators; the C recursion
`_gvariant_get_fixed_size(s + 1)` is the same loop restarted with fresh
accumulators.  `none` is the out-of-fuel sentinel (never hit with the
wrapper's fuel); `some 0` is the C "variable size" result. -/
def fixedSizeF : Nat → List Char → Nat → Nat → Option Nat
  | 0, _, _, _ => none
  | f + 1, s, size, maxAl =>
    match s with
    | [] => some (align_len size maxAl)
    | c :: rest =>
      if c = '\x00' then some (align_len size maxAl)
      else if variable_types.contains c then some 0
      else if fixed_types.contains c then
        fixedSizeF f rest (align_len size (get_basic_alignment c) + get_basic_fixed_size c)
          (max maxAl (get_basic_alignment c))
      else if c = '\x7d' ∨ c = ')' then some (align_len size maxAl)
      else
        match validate_next_type (c :: rest) with
        | .ok p a =>
          match (if c = '(' ∧ headChar rest = ')' then some 1
                 else fixedSizeF f rest 0 1) with
          | none => none
          | some r =>
            if r = 0 then some 0
            else fixedSizeF f p (align_len size a + r) (max maxAl a)
        | _ => some 0

def fixedSizeW (s : List Char) (size maxAl : Nat) : Option Nat :=
  fixedSizeF (2 * s.length + 2) s size maxAl

/-- `_gvariant_get_fixed_size` (lines 237-291). -/
def _gvariant_get_fixed_size (s : List Char) : Nat :=
  (fixedSizeW s 0 1).getD 0

/-! ### Fuel congruence and step equations for the scanners -/

theorem validSigF_congr :
    ∀ n s f g, s.length ≤ n → s.length < f → s.length < g →
      validSigF f s = validSigF g s := by
  intro n
  induction n with
  | zero =>
    intro s f g h1 h2 h3
    have hs : s = [] := List.length_eq_zero.mp (Nat.le_zero.mp h1)
    subst hs
    match f, h2 with
    | f' + 1, _ =>
      match g, h3 with
      | g' + 1, _ =>
        simp only [validSigF, vnt_nil]
  | succ n ih =>
    intro s f g h1 h2 h3
    match f, h2 with
    | f' + 1, _ =>
      match g, h3 with
      | g' + 1, _ =>
        simp only [validSigF]
        cases hv : validate_next_type s with
        | ok r a =>
          simp only
          by_cases hh : headChar r = '\x00'
          · rw [if_pos hh, if_pos hh]
          · rw [if_neg hh, if_neg hh]
            have hr := vnt_ok_length hv
            exact ih r f' g' (by omega) (by omega) (by omega)
        | fail => rfl
        | nofuel => rfl

theorem valid_signature_step (s : List Char) :
    _gvariant_valid_signature s =
      (match validate_next_type s with
       | .ok r _ =>
         if headChar r = '\x00' then true else _gvariant_valid_signature r
       | _ => false) := by
  unfold _gvariant_valid_signature
  simp only [validSigF]
  cases hv : validate_next_type s with
  | ok r a =>
    simp only
    by_cases hh : headChar r = '\x00'
    · rw [if_pos hh, if_pos hh]
    · rw [if_neg hh, if_neg hh]
      have hr := vnt_ok_length hv
      exact validSigF_congr s.length r s.length (r.length + 1) (by omega)
        (by omega) (by omega)
  | fail => rfl
  | nofuel => rfl

theorem numChildrenF_congr :
    ∀ n s f g, s.length ≤ n → s.length < f → s.length < g →
      numChildrenF f s = numChildrenF g s := by
  intro n
  induction n with
  | zero =>
    intro s f g h1 h2 h3
    have hs : s = [] := List.length_eq_zero.mp (Nat.le_zero.mp h1)
    subst hs
    match f, h2 with
    | f' + 1, _ =>
      match g, h3 with
      | g' + 1, _ =>
        simp only [numChildrenF, vnt_nil]
  | succ n ih =>
    intro s f g h1 h2 h3
    match f, h2 with
    | f' + 1, _ =>
      match g, h3 with
      | g' + 1, _ =>
        simp only [numChildrenF]
        cases hv : validate_next_type s with
        | ok r a =>
          simp only
          by_cases hh : headChar r = '\x00'
          · rw [if_pos hh, if_pos hh]
          · rw [if_neg hh, if_neg hh]
            have hr := vnt_ok_length hv
            rw [ih r f' g' (by omega) (by omega) (by omega)]
        | fail => rfl
        | nofuel => rfl

theorem numChildrenW_step (s : List Char) :
    numChildrenW s =
      (match validate_next_type s with
       | .ok r _ =>
         if headChar r = '\x00' then some 1 else (numChildrenW r).map (· + 1)
       | _ => none) := by
  unfold numChildrenW
  simp only [numChildrenF]
  cases hv : validate_next_type s with
  | ok r a =>
    simp only
    by_cases hh : headChar r = '\x00'
    · rw [if_pos hh, if_pos hh]
    · rw [if_neg hh, if_neg hh]
      have hr := vnt_ok_length hv
      rw [numChildrenF_congr s.length r s.length (r.length + 1) (by omega)
        (by omega) (by omega)]
      rfl
  | fail => rfl
  | nofuel => rfl

theorem getAlignF_congr :
    ∀ n s m f g, s.length ≤ n → s.length < f → s.length < g →
      getAlignF f s m = getAlignF g s m := by
  intro n
  induction n with
  | zero =>
    intro s m f g h1 h2 h3
    have hs : s = [] := List.length_eq_zero.mp (Nat.le_zero.mp h1)
    subst hs
    match f, h2 with
    | f' + 1, _ =>
      match g, h3 with
      | g' + 1, _ =>
        simp only [getAlignF]
        have hc : headChar ([] : List Char) = '\x00' := rfl
        rw [if_pos (Or.inl hc), if_pos (Or.inl hc)]
  | succ n ih =>
    intro s m f g h1 h2 h3
    match f, h2 with
    | f' + 1, _ =>
      match g, h3 with
      | g' + 1, _ =>
        simp only [getAlignF]
        by_cases hh : headChar s = '\x00' ∨ m = 8
        · rw [if_pos hh, if_pos hh]
        · rw [if_neg hh, if_neg hh]
          cases hv : validate_next_type s with
          | ok r a =>
            simp only
            have hr := vnt_ok_length hv
            exact ih r (max m a) f' g' (by omega) (by omega) (by omega)
          | fail => rfl
          | nofuel => rfl

theorem getAlignW_step (s : List Char) (m : Nat) :
    getAlignW s m =
      (if headChar s = '\x00' ∨ m = 8 then m
       else
         match validate_next_type s with
         | .ok r a => getAlignW r (max m a)
         | _ => 0) := by
  unfold getAlignW
  simp only [getAlignF]
  by_cases hh : headChar s = '\x00' ∨ m = 8
  · rw [if_pos hh, if_pos hh]
  · rw [if_neg hh, if_neg hh]
    cases hv : validate_next_type s with
    | ok r a =>
      simp only
      have hr := vnt_ok_length hv
      exact getAlignF_congr s.length r (max m a) s.length (r.length + 1)
        (by omega) (by omega) (by omega)
    | fail => rfl
    | nofuel => rfl

/-! ### Character class facts -/

theorem mem_fixed_cases {c : Char} (h : fixed_types.contains c) :
    c = 'b' ∨ c = 'y' ∨ c = 'n' ∨ c = 'q' ∨ c = 'h' ∨ c = 'i' ∨ c = 'u' ∨
      c = 'x' ∨ c = 't' ∨ c = 'd' := by
  simpa only [fixed_types, List.contains_cons, List.contains_nil,
    Bool.or_eq_true, beq_iff_eq, Bool.false_eq_true, or_false] using h

theorem mem_var_cases {c : Char} (h : variable_types.contains c) :
    c = 's' ∨ c = 'o' ∨ c = 'g' ∨ c = 'a' ∨ c = 'v' := by
  simpa only [variable_types, List.contains_cons, List.contains_nil,
    Bool.or_eq_true, beq_iff_eq, Bool.false_eq_true, or_false] using h

theorem fixed_not_var {c : Char} (h : fixed_types.contains c) :
    ¬ variable_types.contains c := by
  intro hv
  rcases mem_fixed_cases h with rfl | rfl | rfl | rfl | rfl | rfl | rfl | rfl | rfl | rfl <;>
    exact absurd hv (by decide)

theorem fixed_not_nul {c : Char} (h : fixed_types.contains c) : c ≠ '\x00' := by
  rcases mem_fixed_cases h with rfl | rfl | rfl | rfl | rfl | rfl | rfl | rfl | rfl | rfl <;>
    decide

theorem var_not_nul {c : Char} (h : variable_types.contains c) : c ≠ '\x00' := by
  rcases mem_var_cases h with rfl | rfl | rfl | rfl | rfl <;> decide

/-! ### Fuel congruence and step equations for `_gvariant_get_fixed_size` -/

theorem fixedSizeF_congr :
    ∀ n s size maxAl f g, s.length ≤ n → 2 * s.length + 2 ≤ f →
      2 * s.length + 2 ≤ g → fixedSizeF f s size maxAl = fixedSizeF g s size maxAl := by
  intro n
  induction n with
  | zero =>
    intro s size maxAl f g h1 h2 h3
    have hs : s = [] := List.length_eq_zero.mp (Nat.le_zero.mp h1)
    subst hs
    match f, (show 0 < f by omega) with
    | f' + 1, _ =>
      match g, (show 0 < g by omega) with
      | g' + 1, _ => simp only [fixedSizeF]
  | succ n ih =>
    intro s size maxAl f g h1 h2 h3
    match f, (show 0 < f by omega) with
    | f' + 1, _ =>
      match g, (show 0 < g by omega) with
      | g' + 1, _ =>
        match s with
        | [] => simp only [fixedSizeF]
        | c :: rest =>
          simp only [fixedSizeF]
          by_cases hc0 : c = '\x00'
          · rw [if_pos hc0, if_pos hc0]
          · rw [if_neg hc0, if_neg hc0]
            by_cases hvar : variable_types.contains c
            · rw [if_pos hvar, if_pos hvar]
            · rw [if_neg hvar, if_neg hvar]
              by_cases hfix : fixed_types.contains c
              · rw [if_pos hfix, if_pos hfix]
                exact ih rest _ _ f' g' (by simp at h1 ⊢; omega)
                  (by simp at h2 ⊢; omega) (by simp at h3 ⊢; omega)
              · rw [if_neg hfix, if_neg hfix]
                by_cases hbr : c = '\x7d' ∨ c = ')'
                · rw [if_pos hbr, if_pos hbr]
                · rw [if_neg hbr, if_neg hbr]
                  cases hv : validate_next_type (c :: rest) with
                  | ok p a =>
                    simp only
                    have hp : p.length < rest.length + 1 := by
                      have := vnt_ok_length hv
                      simpa using this
                    have hrecur :
                        fixedSizeF f' p (align_len size a + 1) (max maxAl a) =
                          fixedSizeF g' p (align_len size a + 1) (max maxAl a) :=
                      ih p _ _ f' g' (by simp at h1; omega)
                        (by simp at h2; omega) (by simp at h3; omega)
                    by_cases hsp : c = '(' ∧ headChar rest = ')'
                    · rw [if_pos hsp, if_pos hsp]
                      simp only
                      rw [if_neg (by decide : ¬ (1 : Nat) = 0),
                        if_neg (by decide : ¬ (1 : Nat) = 0)]
                      exact hrecur
                    · rw [if_neg hsp, if_neg hsp]
                      have hinner : fixedSizeF f' rest 0 1 = fixedSizeF g' rest 0 1 :=
                        ih rest 0 1 f' g' (by simp at h1; omega)
                          (by simp at h2; omega) (by simp at h3; omega)
                      rw [hinner]
                      cases hr : fixedSizeF g' rest 0 1 with
                      | none => rfl
                      | some r =>
                        simp only
                        by_cases hr0 : r = 0
                        · rw [if_pos hr0, if_pos hr0]
                        · rw [if_neg hr0, if_neg hr0]
                          exact ih p _ _ f' g' (by simp at h1; omega)
                            (by simp at h2; omega) (by simp at h3; omega)
                  | fail => rfl
                  | nofuel => rfl

theorem fixedSizeF_eqW {f : Nat} (s : List Char) (size maxAl : Nat)
    (hf : 2 * s.length + 2 ≤ f) :
    fixedSizeF f s size maxAl = fixedSizeW s size maxAl :=
  fixedSizeF_congr s.length s size maxAl f (2 * s.length + 2) le_rfl hf le_rfl

theorem fixedSizeW_unfold (s : List Char) (size maxAl : Nat) :
    fixedSizeW s size maxAl = fixedSizeF (2 * s.length + 1 + 1) s size maxAl := by
  unfold fixedSizeW
  have h : 2 * s.length + 2 = 2 * s.length + 1 + 1 := by omega
  rw [h]

theorem fsW_nil (size m : Nat) : fixedSizeW [] size m = some (align_len size m) := rfl

theorem fsW_nul (rest : List Char) (size m : Nat) :
    fixedSizeW ('\x00' :: rest) size m = some (align_len size m) := by
  rw [fixedSizeW_unfold]
  generalize 2 * (('\x00' : Char) :: rest).length + 1 = F
  simp only [fixedSizeF]
  simp

theorem fsW_var {c : Char} (rest : List Char) (size m : Nat)
    (h : variable_types.contains c) :
    fixedSizeW (c :: rest) size m = some 0 := by
  rw [fixedSizeW_unfold]
  generalize 2 * (c :: rest).length + 1 = F
  simp only [fixedSizeF]
  rw [if_neg (var_not_nul h), if_pos h]

theorem fsW_fixed {c : Char} (rest : List Char) (size m : Nat)
    (h : fixed_types.contains c) :
    fixedSizeW (c :: rest) size m =
      fixedSizeW rest (align_len size (get_basic_alignment c) + get_basic_fixed_size c)
        (max m (get_basic_alignment c)) := by
  rw [fixedSizeW_unfold]
  generalize hF : 2 * (c :: rest).length + 1 = F
  simp only [fixedSizeF]
  rw [if_neg (fixed_not_nul h), if_neg (fixed_not_var h), if_pos h]
  exact fixedSizeF_eqW rest _ _ (by simp only [List.length_cons] at hF; omega)

theorem fsW_break {c : Char} (rest : List Char) (size m : Nat)
    (hc0 : c ≠ '\x00') (hvar : ¬ variable_types.contains c)
    (hfix : ¬ fixed_types.contains c) (h : c = '\x7d' ∨ c = ')') :
    fixedSizeW (c :: rest) size m = some (align_len size m) := by
  rw [fixedSizeW_unfold]
  generalize 2 * (c :: rest).length + 1 = F
  simp only [fixedSizeF]
  rw [if_neg hc0, if_neg hvar, if_neg hfix, if_pos h]

theorem fsW_container {c : Char} (rest : List Char) (size m : Nat)
    (hc0 : c ≠ '\x00') (hvar : ¬ variable_types.contains c)
    (hfix : ¬ fixed_types.contains c) (hbr : ¬ (c = '\x7d' ∨ c = ')')) :
    fixedSizeW (c :: rest) size m =
      (match validate_next_type (c :: rest) with
       | .ok p a =>
         (match (if c = '(' ∧ headChar rest = ')' then some 1
                 else fixedSizeW rest 0 1) with
          | none => none
          | some r =>
            if r = 0 then some 0
            else fixedSizeW p (align_len size a + r) (max m a))
       | _ => some 0) := by
  rw [fixedSizeW_unfold]
  generalize hF : 2 * (c :: rest).length + 1 = F
  simp only [List.length_cons] at hF
  simp only [fixedSizeF]
  rw [if_neg hc0, if_neg hvar, if_neg hfix, if_neg hbr]
  cases hv : validate_next_type (c :: rest) with
  | ok p a =>
    simp only
    have hp : p.length ≤ rest.length := by
      have := vnt_ok_length hv
      simp only [List.length_cons] at this
      omega
    by_cases hsp : c = '(' ∧ headChar rest = ')'
    · rw [if_pos hsp, if_pos hsp]
      simp only
      rw [if_neg (by decide : ¬ (1 : Nat) = 0), if_neg (by decide : ¬ (1 : Nat) = 0)]
      exact fixedSizeF_eqW p _ _ (by omega)
    · rw [if_neg hsp, if_neg hsp]
      rw [fixedSizeF_eqW rest 0 1 (by omega)]
      cases hr : fixedSizeW rest 0 1 with
      | none => rfl
      | some r =>
        simp only
        by_cases hr0 : r = 0
        · rw [if_pos hr0, if_pos hr0]
        · rw [if_neg hr0, if_neg hr0]
          exact fixedSizeF_eqW p _ _ (by omega)
  | fail => rfl
  | nofuel => rfl

theorem fixedSizeW_ne_none :
    ∀ n s size m, s.length ≤ n → fixedSizeW s size m ≠ none := by
  intro n
  induction n with
  | zero =>
    intro s size m h1
    have hs : s = [] := List.length_eq_zero.mp (Nat.le_zero.mp h1)
    subst hs
    rw [fsW_nil]
    intro h; cases h
  | succ n ih =>
    intro s size m h1
    match s with
    | [] => rw [fsW_nil]; intro h; cases h
    | c :: rest =>
      by_cases hc0 : c = '\x00'
      · subst hc0; rw [fsW_nul]; intro h; cases h
      · by_cases hvar : variable_types.contains c
        · rw [fsW_var rest size m hvar]; intro h; cases h
        · by_cases hfix : fixed_types.contains c
          · rw [fsW_fixed rest size m hfix]
            exact ih rest _ _ (by simp at h1 ⊢; omega)
          · by_cases hbr : c = '\x7d' ∨ c = ')'
            · rw [fsW_break rest size m hc0 hvar hfix hbr]; intro h; cases h
            · rw [fsW_container rest size m hc0 hvar hfix hbr]
              cases hv : validate_next_type (c :: rest) with
              | ok p a =>
                simp only
                have hp : p.length ≤ rest.length := by
                  have := vnt_ok_length hv
                  simp only [List.length_cons] at this
                  omega
                by_cases hsp : c = '(' ∧ headChar rest = ')'
                · rw [if_pos hsp]
                  simp only
                  rw [if_neg (by decide : ¬ (1 : Nat) = 0)]
                  exact ih p _ _ (by simp at h1; omega)
                · rw [if_neg hsp]
                  cases hr : fixedSizeW rest 0 1 with
                  | none =>
                    exact absurd hr (ih rest 0 1 (by simp at h1 ⊢; omega))
                  | some r =>
                    simp only
                    by_cases hr0 : r = 0
                    · rw [if_pos hr0]; intro h; cases h
                    · rw [if_neg hr0]
                      exact ih p _ _ (by simp at h1; omega)
              | fail => intro h; cases h
              | nofuel => intro h; cases h

/-! ## The iterator (reader)

`struct l_dbus_message_iter` as used by gvariant-util.c.  `sigStart` models
the `sig_start` pointer: the characters of the underlying signature string
from that pointer on (so reads beyond the window `[0, sigLen)` see the
characters that follow it, as in C).  `data` models the `data` pointer the
same way: the accessible bytes from that pointer on (the frame is the first
`len` of them).  `offsets` models the `offsets` pointer as an offset relative
to `data` (`none` is NULL); it is an `Int` because the struct walk decrements
it below `data` after the last offset word is consumed. -/

inductive ContainerType where
  | struct
  | dictEntry
  | array
  | variant
deriving DecidableEq, Repr

structure Iter where
  message : Nat
  sigStart : List Char
  sigLen : Nat
  sigPos : Nat
  data : List Nat
  len : Nat
  pos : Nat
  containerType : ContainerType
  offsets : Option Int
deriving DecidableEq, Repr

/-- The fields of `struct gvariant_type_info` that the second loop of
`gvariant_iter_init_internal` consumes (lines 340-347; the signature-index
fields are only used to rebuild the child signature, which `parseChildren`
hands over directly). -/
structure ChildInfo where
  fixedSize : Bool
  alignment : Nat
  endOff : Nat
deriving DecidableEq, Repr

/-- The first loop of `gvariant_iter_init_internal` (lines 367-388): parse
`count` children starting at index `pIdx` of the signature string.  `none`
models the configuration in which `validate_next_type` returns NULL there:
the C code would then compute `NULL - sig_start` and pass NULL to
`validate_next_type` on the next iteration (undefined behavior; not reachable
through the API, which only initialises over validated windows). -/
def parseChildren (sigStart : List Char) : Nat → Nat → Option (List ChildInfo)
  | 0, _ => some []
  | count + 1, pIdx =>
    match validate_next_type (sigStart.drop pIdx) with
    | .ok r a =>
      let consumed := (sigStart.length - pIdx) - r.length
      let csig := (sigStart.drop pIdx).take consumed
      let fixed := _gvariant_is_fixed_size csig
      let endOff := if fixed then _gvariant_get_fixed_size csig else 0
      match parseChildren sigStart count (pIdx + consumed) with
      | some rest =>
        some ({ fixedSize := fixed, alignment := a, endOff := endOff } :: rest)
      | none => none
    | _ => none

/-- The `num_variable` counter of lines 386-387: variable-size children that
are not the last child. -/
def numVariableOf (children : List ChildInfo) : Nat :=
  (children.dropLast.filter (fun ci => ! ci.fixedSize)).length

/-- The second loop of `gvariant_iter_init_internal` (lines 400-429): walk the
children computing each end offset, reading the reverse offset table for the
variable ones, with the `end > len` checks.  Returns whether the loop ran to
completion (no `goto fail`) and the (address, width) data reads it performed,
in order.  `first` is true for index 0 (whose `end > len` check the C code
skips); `prevEnd` is `children[i-1].end`; `v` and `numVar` are the counters
of the C code. -/
def sizeLoop (data : List Nat) (len offset_len last_offset : Nat) :
    List ChildInfo → Bool → Nat → Nat → Nat → Bool × List (Int × Nat)
  | [], _, _, _, _ => (true, [])
  | ci :: rest, first, prevEnd, v, numVar =>
    if ci.fixedSize then
      if first then sizeLoop data len offset_len last_offset rest false ci.endOff v numVar
      else
        let e := ci.endOff + align_len prevEnd ci.alignment
        if e > len then (false, [])
        else sizeLoop data len offset_len last_offset rest false e v numVar
    else
      if numVar = 0 then
        sizeLoop data len offset_len last_offset rest false last_offset v numVar
      else
        let v' := v + 1
        let addr : Int := (len : Int) - (offset_len : Int) * v'
        let e := read_word_le data addr offset_len
        if e > len then (false, [(addr, offset_len)])
        else
          match sizeLoop data len offset_len last_offset rest false e v' (numVar - 1) with
          | (okFlag, reads) => (okFlag, (addr, offset_len) :: reads)

inductive InitRes where
  | ok (it : Iter)
  | fail
  | ub
deriving DecidableEq, Repr

/-- `gvariant_iter_init_internal` (lines 326-447).  `sigEndLen` is
`sig_end - sig_start` when `sig_end` is non-NULL (`none` is the `strcpy`
branch).  The second component records every read of the data buffer, in
order, as (address, width) pairs — used by the memory-safety claims.  `ub`
models the configurations in which the C code's behavior is undefined:
a signature window of 256 or more bytes (the local `char subsig[256]` copy
writes past the buffer), a child that fails to validate in the first loop,
and reading `children[0]` when no children were allocated. -/
def gvariant_iter_init_internal (message : Nat) (ctype : ContainerType)
    (sigStart : List Char) (sigEndLen : Option Nat) (data : List Nat)
    (len : Nat) : InitRes × List (Int × Nat) :=
  let copyLen :=
    match sigEndLen with
    | some l => l
    | none => (sigStart.takeWhile (· ≠ '\x00')).length
  if 256 ≤ copyLen then (.ub, [])
  else
    let subsig := sigStart.take copyLen
    let sigLenV := (subsig.takeWhile (· ≠ '\x00')).length
    let offset_len := offset_length len 0
    let nch := ((_gvariant_num_children subsig).emod 256).toNat
    match parseChildren sigStart nch 0 with
    | none => (.ub, [])
    | some children =>
      let numVar := numVariableOf children
      if len < numVar * offset_len then (.fail, [])
      else
        let last_offset := len - numVar * offset_len
        let offsets0 : Option Int :=
          if 0 < numVar then some ((len : Int) - offset_len) else none
        let mkIter : Option Int → Iter := fun off =>
          { message := message, sigStart := sigStart, sigLen := sigLenV,
            sigPos := 0, data := data, len := len, pos := 0,
            containerType := ctype, offsets := off }
        match sizeLoop data len offset_len last_offset children true 0 0 numVar with
        | (false, reads) => (.fail, reads)
        | (true, reads) =>
          if ctype = .array then
            match children with
            | [] => (.ub, reads)
            | c0 :: _ =>
              if c0.fixedSize then (.ok (mkIter offsets0), reads)
              else
                let addr : Int := (len : Int) - offset_len
                let off := read_word_le data addr offset_len
                (.ok (mkIter (some (off : Int))), reads ++ [(addr, offset_len)])
          else (.ok (mkIter offsets0), reads)

/-- `_gvariant_iter_init` (lines 449-457): a top-level reader is a STRUCT
container. -/
def _gvariant_iter_init (message : Nat) (sigStart : List Char)
    (sigEndLen : Option Nat) (data : List Nat) (len : Nat) :
    InitRes × List (Int × Nat) :=
  gvariant_iter_init_internal message .struct sigStart sigEndLen data len

/-- The signature character the guards of the extraction operations read:
`iter->sig_start[iter->sig_pos]` (an access past the modelled characters
reads the string's terminating NUL / zero memory). -/
def sigCharAt (it : Iter) : Char :=
  it.sigStart.getD it.sigPos '\x00'

inductive NIRes where
  | ok (start size : Nat)
  | fail
  | ub
deriving DecidableEq, Repr

/-- `next_item` (lines 459-527).  Returns the child extent (start offset and
size within `data`) on success, together with the iterator after the call; on
failure the iterator may already have been mutated (`sig_pos`, `pos`,
`offsets`), exactly as in the C code, which returns NULL after those updates.
`ub` models the two configurations whose C behavior is undefined: a window of
256 or more bytes (the local `char sig[256]` copy overflows; with
`sig_pos > sig_len` the `memcpy` length underflows), and a NULL `offsets`
pointer reaching the offset-table branch (NULL compares below `data + len`,
so the guard passes and the word read dereferences NULL).  Neither is
reachable through the API.  `next_item_go` is the continuation after
`validate_next_type` succeeds on the window (lines 486-526), with `tsig` the
consumed complete type, `r` the unconsumed remainder of the window and `a`
the alignment. -/
def next_item_go (it : Iter) (tsig r : List Char) (a : Nat) : NIRes × Iter :=
  let last_member := headChar r = '\x00'
  let fixed := _gvariant_is_fixed_size tsig
  let it1 :=
    if it.containerType = .array then it
    else { it with sigPos := it.sigPos + tsig.length }
  let it2 := { it1 with pos := align_len it1.pos a }
  if fixed then
    let sz := _gvariant_get_fixed_size tsig
    if it2.len ≤ it2.pos then (.fail, it2)
    else (.ok it2.pos sz, { it2 with pos := it2.pos + sz })
  else if it.containerType ≠ .array ∧ last_member then
    -- iter->len - iter->pos in size_t; on the success path pos < len,
    -- so the plain truncated subtraction agrees with C
    let sz := it2.len - it2.pos
    if it2.len ≤ it2.pos then (.fail, it2)
    else (.ok it2.pos sz, { it2 with pos := it2.pos + sz })
  else
    match it2.offsets with
    | none => (.ub, it2)
    | some o =>
      if (it2.len : Int) ≤ o then (.fail, it2)
      else
        let offset_len := offset_length it2.len 0
        let sz := subSizeT (read_word_le it2.data o offset_len) it2.pos
        let newOff : Int :=
          if it.containerType = .array then o + offset_len else o - offset_len
        let it3 := { it2 with offsets := some newOff }
        if it3.len ≤ it3.pos then (.fail, it3)
        else (.ok it3.pos sz, { it3 with pos := (it3.pos + sz) % 2 ^ 64 })

def next_item (it : Iter) : NIRes × Iter :=
  if it.sigLen < it.sigPos then (.ub, it)
  else if 256 ≤ it.sigLen - it.sigPos then (.ub, it)
  else
    let window := (it.sigStart.drop it.sigPos).take (it.sigLen - it.sigPos)
    match validate_next_type window with
    | .ok r a => next_item_go it (window.take (window.length - r.length)) r a
    | _ => (.fail, it)

/-- The decoded basic value `_gvariant_iter_next_entry_basic` stores through
`out`.  For the string-like types it is the borrowed pointer, modelled as the
byte offset of the child extent within `data`. -/
inductive GvVal where
  | strp (ofs : Nat)
  | boolean (b : Bool)
  | u8 (n : Nat)
  | i16 (n : Int)
  | u16 (n : Nat)
  | i32 (n : Int)
  | u32 (n : Nat)
  | i64 (n : Int)
  | u64 (n : Nat)
deriving DecidableEq, Repr

inductive BasicRes where
  | ok (v : Option GvVal)
  | fail
  | ub
deriving DecidableEq, Repr

/-- `_gvariant_iter_next_entry_basic` (lines 529-605).  `ok none` models the
C switch falling through for a `type` with no case (the signature character
matched and `next_item` succeeded, but `*out` is never written and the
function still returns true). -/
def _gvariant_iter_next_entry_basic (it : Iter) (t : Char) : BasicRes × Iter :=
  if it.len ≤ it.pos then (.fail, it)
  else if sigCharAt it ≠ t then (.fail, it)
  else
    match next_item it with
    | (.fail, it') => (.fail, it')
    | (.ub, it') => (.ub, it')
    | (.ok start sz, it') =>
      if t = 's' ∨ t = 'o' ∨ t = 'g' then
        match memchrIdx it.data 0 start sz with
        | none => (.fail, it')
        | some _ => (.ok (some (.strp start)), it')
      else if t = 'b' then
        (.ok (some (.boolean (readByteN it.data start ≠ 0))), it')
      else if t = 'y' then (.ok (some (.u8 (readByteN it.data start))), it')
      else if t = 'n' then
        (.ok (some (.i16 (toSigned (read_word_le it.data start 2) 16))), it')
      else if t = 'q' then (.ok (some (.u16 (read_word_le it.data start 2))), it')
      else if t = 'i' then
        (.ok (some (.i32 (toSigned (read_word_le it.data start 4) 32))), it')
      else if t = 'h' ∨ t = 'u' then
        (.ok (some (.u32 (read_word_le it.data start 4))), it')
      else if t = 'x' then
        (.ok (some (.i64 (toSigned (read_word_le it.data start 8) 64))), it')
      else if t = 't' then (.ok (some (.u64 (read_word_le it.data start 8))), it')
      else if t = 'd' then (.ok (some (.u64 (read_word_le it.data start 8))), it')
      else (.ok none, it')

inductive EnterRes where
  | ok (child : Iter)
  | fail
  | ub
deriving DecidableEq, Repr

/-- `_gvariant_iter_enter_struct` (lines 607-637).  The child signature
window starts one past the opening bracket (computed from the `sig_pos`
before `next_item` runs, as in C) and ends before the closing bracket (from
the advanced `sig_pos`; for an ARRAY parent, which never advances `sig_pos`,
it is `sig_len - 1`).  `next_item` never touches `container_type`, so reading
it from the pre-call iterator matches the C code. -/
def _gvariant_iter_enter_struct (it : Iter) : EnterRes × Iter :=
  let is_dict := sigCharAt it = '\x7b'
  let is_struct := sigCharAt it = '('
  let sig_start_idx := it.sigPos + 1
  if ¬ (is_dict ∨ is_struct) then (.fail, it)
  else
    match next_item it with
    | (.fail, it') => (.fail, it')
    | (.ub, it') => (.ub, it')
    | (.ok start sz, it') =>
      let sig_end_idx :=
        if it.containerType = .array then it.sigLen - 1 else it'.sigPos - 1
      let ctype := if is_dict then ContainerType.dictEntry else ContainerType.struct
      match gvariant_iter_init_internal it.message ctype
          (it.sigStart.drop sig_start_idx) (some (sig_end_idx - sig_start_idx))
          (it.data.drop start) sz with
      | (.ok child, _) => (.ok child, it')
      | (.fail, _) => (.fail, it')
      | (.ub, _) => (.ub, it')

/-- `_gvariant_iter_enter_variant` (lines 639-676).  The last NUL of the
child extent is located by reverse search; at most 255 signature bytes pass
the length check, but the local buffer is `char signature[255]`, so a
signature of exactly 255 bytes overflows it by one byte when the terminating
NUL is stored (`signature[255] = 0`): that configuration is modelled as
`ub`. -/
def _gvariant_iter_enter_variant (it : Iter) : EnterRes × Iter :=
  if sigCharAt it ≠ 'v' then (.fail, it)
  else
    match next_item it with
    | (.fail, it') => (.fail, it')
    | (.ub, it') => (.ub, it')
    | (.ok start sz, it') =>
      let endIdx := start + sz
      match memrchrIdx it.data 0 start sz with
      | none => (.fail, it')
      | some nul =>
        if 255 < endIdx - nul - 1 then (.fail, it')
        else if endIdx - nul - 1 = 255 then (.ub, it')
        else
          let signature :=
            (List.range (endIdx - nul - 1)).map
              (fun j => charOfByte (readByteN it.data (nul + 1 + j)))
          if ¬ _gvariant_valid_signature signature then (.fail, it')
          else if _gvariant_num_children signature ≠ 1 then (.fail, it')
          else
            match gvariant_iter_init_internal it.message .variant
                ((it.data.drop (nul + 1)).map charOfByte)
                (some (endIdx - (nul + 1))) (it.data.drop start) (nul - start) with
            | (.ok child, _) => (.ok child, it')
            | (.fail, _) => (.fail, it')
            | (.ub, _) => (.ub, it')

/-- `_gvariant_iter_enter_array` (lines 678-705). -/
def _gvariant_iter_enter_array (it : Iter) : EnterRes × Iter :=
  if sigCharAt it ≠ 'a' then (.fail, it)
  else
    let sig_start_idx := it.sigPos + 1
    match next_item it with
    | (.fail, it') => (.fail, it')
    | (.ub, it') => (.ub, it')
    | (.ok start sz, it') =>
      let sig_end_idx :=
        if it.containerType = .array then it.sigLen else it'.sigPos
      match gvariant_iter_init_internal it.message .array
          (it.sigStart.drop sig_start_idx) (some (sig_end_idx - sig_start_idx))
          (it.data.drop start) sz with
      | (.ok child, _) => (.ok child, it')
      | (.fail, _) => (.fail, it')
      | (.ub, _) => (.ub, it')

/-- Extract `n` successive children through `next_item` ("reading a frame":
each child of the container is located and consumed in order). -/
def itemsAll : Nat → Iter → Bool
  | 0, _ => true
  | n + 1, it =>
    match next_item it with
    | (.ok _ _, it') => itemsAll n it'
    | _ => false

/-! ### Facts about `align_len` -/

theorem align_len_ge (n a : Nat) : n ≤ align_len n a := by
  unfold align_len
  split
  · exact le_rfl
  next h =>
    have ha : 0 < a := Nat.pos_of_ne_zero h
    have hd := Nat.div_add_mod (n + a - 1) a
    have hm := Nat.mod_lt (n + a - 1) ha
    rw [Nat.mul_comm]
    omega

theorem align_len_zero (a : Nat) : align_len 0 a = 0 := by
  unfold align_len
  split
  · rfl
  next h =>
    have ha : 0 < a := Nat.pos_of_ne_zero h
    have : (a - 1) / a = 0 := Nat.div_eq_of_lt (by omega)
    simp [this]

theorem align_len_dvd (n a : Nat) (ha : a ≠ 0) : a ∣ align_len n a := by
  unfold align_len
  split
  next h => exact absurd h ha
  next => exact ⟨(n + a - 1) / a, (Nat.mul_comm _ _)⟩

theorem align_len_eq_of_dvd {n a : Nat} (h : a ∣ n) : align_len n a = n := by
  unfold align_len
  split
  · rfl
  next ha0 =>
    have ha : 0 < a := Nat.pos_of_ne_zero ha0
    obtain ⟨k, rfl⟩ := h
    have h1 : (a * k + a - 1) / a = k + (a - 1) / a := by
      rw [show a * k + a - 1 = (a - 1) + k * a by ring_nf; omega]
      rw [Nat.add_mul_div_right _ _ ha]
      omega
    have h2 : (a - 1) / a = 0 := Nat.div_eq_of_lt (by omega)
    rw [h1, h2]
    ring

theorem align_len_le_of_le {n a b : Nat} (hab : a ∣ b) (hn : n ≤ b) :
    align_len n a ≤ b := by
  unfold align_len
  split
  · exact hn
  next ha0 =>
    have ha : 0 < a := Nat.pos_of_ne_zero ha0
    obtain ⟨k, rfl⟩ := hab
    have : (n + a - 1) / a ≤ k := by
      rw [Nat.div_le_iff_le_mul_add_pred ha]
      omega
    calc (n + a - 1) / a * a ≤ k * a := Nat.mul_le_mul_right a this
    _ = a * k := Nat.mul_comm _ _

/-! ### `next_item` facts -/

theorem next_item_go_no_ok (it : Iter) (tsig r : List Char) (a : Nat)
    (h : it.len ≤ it.pos) : ∀ s z, (next_item_go it tsig r a).1 ≠ .ok s z := by
  intro s z
  have hcond : it.len ≤ align_len it.pos a := le_trans h (align_len_ge it.pos a)
  by_cases hc : it.containerType = .array
  · simp only [next_item_go, hc, if_pos rfl]
    simp only [hcond, ite_true]
    split <;> (try split) <;> (try split) <;> (try split) <;> simp
  · simp only [next_item_go, if_neg hc]
    simp only [hcond, ite_true]
    split <;> (try split) <;> (try split) <;> (try split) <;> simp

theorem next_item_no_ok_terminal (it : Iter)
    (h : it.len ≤ it.pos ∨ (it.containerType ≠ .array ∧ it.sigPos = it.sigLen)) :
    ∀ s z, (next_item it).1 ≠ .ok s z := by
  intro s z
  unfold next_item
  by_cases h1 : it.sigLen < it.sigPos
  · rw [if_pos h1]; simp
  · rw [if_neg h1]
    by_cases h2 : 256 ≤ it.sigLen - it.sigPos
    · rw [if_pos h2]; simp
    · rw [if_neg h2]
      rcases h with hpos | ⟨hna, hsig⟩
      · cases hv : validate_next_type
            ((it.sigStart.drop it.sigPos).take (it.sigLen - it.sigPos)) with
        | ok rr aa =>
          simp only [hv]
          exact next_item_go_no_ok it _ rr aa hpos s z
        | fail => simp [hv]
        | nofuel => simp [hv]
      · have hwin : (it.sigStart.drop it.sigPos).take (it.sigLen - it.sigPos) = [] := by
          rw [hsig]
          simp
        simp only [hwin, vnt_nil]
        simp

theorem next_basic_snd (it : Iter) (t : Char) :
    (_gvariant_iter_next_entry_basic it t).2 = it ∨
      (_gvariant_iter_next_entry_basic it t).2 = (next_item it).2 := by
  unfold _gvariant_iter_next_entry_basic
  by_cases g1 : it.len ≤ it.pos
  · rw [if_pos g1]; left; rfl
  · rw [if_neg g1]
    by_cases g2 : sigCharAt it ≠ t
    · rw [if_pos g2]; left; rfl
    · rw [if_neg g2]
      rcases hni : next_item it with ⟨res, it'⟩
      cases res with
      | ok s z =>
        right
        simp only
        repeat' split
        all_goals rfl
      | fail => right; simp only
      | ub => right; simp only

theorem enter_struct_snd (it : Iter) :
    (_gvariant_iter_enter_struct it).2 = it ∨
      (_gvariant_iter_enter_struct it).2 = (next_item it).2 := by
  unfold _gvariant_iter_enter_struct
  by_cases g : ¬ (sigCharAt it = '\x7b' ∨ sigCharAt it = '(')
  · rw [if_pos g]; left; rfl
  · rw [if_neg g]
    rcases hni : next_item it with ⟨res, it'⟩
    cases res with
    | ok s z =>
      right
      simp only
      repeat' split
      all_goals rfl
    | fail => right; simp only
    | ub => right; simp only

theorem enter_array_snd (it : Iter) :
    (_gvariant_iter_enter_array it).2 = it ∨
      (_gvariant_iter_enter_array it).2 = (next_item it).2 := by
  unfold _gvariant_iter_enter_array
  by_cases g : sigCharAt it ≠ 'a'
  · rw [if_pos g]; left; rfl
  · rw [if_neg g]
    rcases hni : next_item it with ⟨res, it'⟩
    cases res with
    | ok s z =>
      right
      simp only
      repeat' split
      all_goals rfl
    | fail => right; simp only
    | ub => right; simp only

theorem enter_variant_snd (it : Iter) :
    (_gvariant_iter_enter_variant it).2 = it ∨
      (_gvariant_iter_enter_variant it).2 = (next_item it).2 := by
  unfold _gvariant_iter_enter_variant
  by_cases g : sigCharAt it ≠ 'v'
  · rw [if_pos g]; left; rfl
  · rw [if_neg g]
    rcases hni : next_item it with ⟨res, it'⟩
    cases res with
    | ok s z =>
      right
      simp only
      repeat' split
      all_goals rfl
    | fail => right; simp only
    | ub => right; simp only

theorem next_basic_no_ok (it : Iter) (t : Char)
    (hni : ∀ s z, (next_item it).1 ≠ .ok s z) :
    ∀ v, (_gvariant_iter_next_entry_basic it t).1 ≠ .ok v := by
  intro v
  unfold _gvariant_iter_next_entry_basic
  by_cases g1 : it.len ≤ it.pos
  · rw [if_pos g1]; simp
  · rw [if_neg g1]
    by_cases g2 : sigCharAt it ≠ t
    · rw [if_pos g2]; simp
    · rw [if_neg g2]
      rcases hpair : next_item it with ⟨res, it'⟩
      cases res with
      | ok s z =>
        have := hni s z
        rw [hpair] at this
        exact absurd rfl this
      | fail => simp only; simp
      | ub => simp only; simp

theorem enter_struct_no_ok (it : Iter)
    (hni : ∀ s z, (next_item it).1 ≠ .ok s z) :
    ∀ c, (_gvariant_iter_enter_struct it).1 ≠ .ok c := by
  intro c
  unfold _gvariant_iter_enter_struct
  by_cases g : ¬ (sigCharAt it = '\x7b' ∨ sigCharAt it = '(')
  · rw [if_pos g]; simp
  · rw [if_neg g]
    rcases hpair : next_item it with ⟨res, it'⟩
    cases res with
    | ok s z =>
      have := hni s z
      rw [hpair] at this
      exact absurd rfl this
    | fail => simp only; simp
    | ub => simp only; simp

theorem enter_array_no_ok (it : Iter)
    (hni : ∀ s z, (next_item it).1 ≠ .ok s z) :
    ∀ c, (_gvariant_iter_enter_array it).1 ≠ .ok c := by
  intro c
  unfold _gvariant_iter_enter_array
  by_cases g : sigCharAt it ≠ 'a'
  · rw [if_pos g]; simp
  · rw [if_neg g]
    rcases hpair : next_item it with ⟨res, it'⟩
    cases res with
    | ok s z =>
      have := hni s z
      rw [hpair] at this
      exact absurd rfl this
    | fail => simp only; simp
    | ub => simp only; simp

theorem enter_variant_no_ok (it : Iter)
    (hni : ∀ s z, (next_item it).1 ≠ .ok s z) :
    ∀ c, (_gvariant_iter_enter_variant it).1 ≠ .ok c := by
  intro c
  unfold _gvariant_iter_enter_variant
  by_cases g : sigCharAt it ≠ 'v'
  · rw [if_pos g]; simp
  · rw [if_neg g]
    rcases hpair : next_item it with ⟨res, it'⟩
    cases res with
    | ok s z =>
      have := hni s z
      rw [hpair] at this
      exact absurd rfl this
    | fail => simp only; simp
    | ub => simp only; simp

/-- C7: for every reader in a terminal state — `pos ≥ len`, or
`sig_pos = sig_len` for a non-array reader — no extraction operation
succeeds: `next_item` yields no child, `_gvariant_iter_next_entry_basic`
never returns true with a decoded value, and none of the `enter_*`
operations produces a sub-reader. -/
theorem C7_terminal_no_success (it : Iter)
    (h : it.len ≤ it.pos ∨ (it.containerType ≠ .array ∧ it.sigPos = it.sigLen)) :
    (∀ s z, (next_item it).1 ≠ .ok s z) ∧
    (∀ t v, (_gvariant_iter_next_entry_basic it t).1 ≠ .ok v) ∧
    (∀ c, (_gvariant_iter_enter_struct it).1 ≠ .ok c) ∧
    (∀ c, (_gvariant_iter_enter_array it).1 ≠ .ok c) ∧
    (∀ c, (_gvariant_iter_enter_variant it).1 ≠ .ok c) := by
  have hni := next_item_no_ok_terminal it h
  exact ⟨hni, fun t => next_basic_no_ok it t hni, enter_struct_no_ok it hni,
    enter_array_no_ok it hni, enter_variant_no_ok it hni⟩

/-- C7 witness: concrete instantiation at a terminal reader (a struct reader
over signature "i" whose position has reached the end of its 4-byte frame). -/
theorem C7_terminal_no_success_witness :
    (let itw : Iter :=
      { message := 0
        sigStart := ['i']
        sigLen := 1
        sigPos := 1
        data := [7, 0, 0, 0]
        len := 4
        pos := 4
        containerType := .struct
        offsets := none }
     (itw.len ≤ itw.pos ∨ (itw.containerType ≠ .array ∧ itw.sigPos = itw.sigLen)) ∧
     ((∀ s z, (next_item itw).1 ≠ .ok s z) ∧
      (∀ t v, (_gvariant_iter_next_entry_basic itw t).1 ≠ .ok v) ∧
      (∀ c, (_gvariant_iter_enter_struct itw).1 ≠ .ok c) ∧
      (∀ c, (_gvariant_iter_enter_array itw).1 ≠ .ok c) ∧
      (∀ c, (_gvariant_iter_enter_variant itw).1 ≠ .ok c))) :=
  ⟨Or.inl (by decide), C7_terminal_no_success _ (Or.inl (by decide))⟩

theorem next_item_go_sigPos_array (it : Iter) (tsig r : List Char) (a : Nat)
    (h : it.containerType = .array) :
    (next_item_go it tsig r a).2.sigPos = it.sigPos := by
  obtain ⟨msg, ss, sl, sp, d, l, p, ct, off⟩ := it
  simp only at h
  subst h
  simp only [next_item_go]
  repeat' split
  all_goals simp_all

theorem next_item_sigPos_array (it : Iter) (h : it.containerType = .array) :
    (next_item it).2.sigPos = it.sigPos := by
  unfold next_item
  by_cases h1 : it.sigLen < it.sigPos
  · rw [if_pos h1]
  · rw [if_neg h1]
    by_cases h2 : 256 ≤ it.sigLen - it.sigPos
    · rw [if_pos h2]
    · rw [if_neg h2]
      cases hv : validate_next_type
          ((it.sigStart.drop it.sigPos).take (it.sigLen - it.sigPos)) with
      | ok rr aa =>
        simp only [hv]
        exact next_item_go_sigPos_array it _ rr aa h
      | fail => simp [hv]
      | nofuel => simp [hv]

/-- C8: for an ARRAY reader, no operation ever changes `sig_pos`: the element
signature is re-read from the same window position for every element. -/
theorem C8_array_sigPos_invariant (it : Iter) (h : it.containerType = .array) :
    (next_item it).2.sigPos = it.sigPos ∧
    (∀ t, (_gvariant_iter_next_entry_basic it t).2.sigPos = it.sigPos) ∧
    (_gvariant_iter_enter_struct it).2.sigPos = it.sigPos ∧
    (_gvariant_iter_enter_array it).2.sigPos = it.sigPos ∧
    (_gvariant_iter_enter_variant it).2.sigPos = it.sigPos := by
  have hni := next_item_sigPos_array it h
  refine ⟨hni, fun t => ?_, ?_, ?_, ?_⟩
  · rcases next_basic_snd it t with he | he <;> rw [he]
    exact hni
  · rcases enter_struct_snd it with he | he <;> rw [he]
    exact hni
  · rcases enter_array_snd it with he | he <;> rw [he]
    exact hni
  · rcases enter_variant_snd it with he | he <;> rw [he]
    exact hni

/-- C8 witness: concrete instantiation at an ARRAY reader over element
signature "i" in a 12-byte frame, mid-iteration. -/
theorem C8_array_sigPos_invariant_witness :
    (let itw : Iter :=
      { message := 0
        sigStart := ['i']
        sigLen := 1
        sigPos := 0
        data := [1, 0, 0, 0, 2, 0, 0, 0, 3, 0, 0, 0]
        len := 12
        pos := 4
        containerType := .array
        offsets := none }
     itw.containerType = ContainerType.array ∧
     ((next_item itw).2.sigPos = itw.sigPos ∧
      (∀ t, (_gvariant_iter_next_entry_basic itw t).2.sigPos = itw.sigPos) ∧
      (_gvariant_iter_enter_struct itw).2.sigPos = itw.sigPos ∧
      (_gvariant_iter_enter_array itw).2.sigPos = itw.sigPos ∧
      (_gvariant_iter_enter_variant itw).2.sigPos = itw.sigPos)) :=
  ⟨rfl, C8_array_sigPos_invariant _ rfl⟩

/-! ### C1: failure and mutation -/

/-- The reader produced by `_gvariant_iter_init` over signature "(ss)" with an
empty frame (length 0); initialization succeeds. -/
def iterC1 : Iter :=
  { message := 0
    sigStart := ['(', 's', 's', ')']
    sigLen := 4
    sigPos := 0
    data := []
    len := 0
    pos := 0
    containerType := .struct
    offsets := none }

/-- C1 counterexample: on the reader obtained from `_gvariant_iter_init` over
signature "(ss)" with a zero-length frame (a legitimate API call that
succeeds), `_gvariant_iter_enter_struct` returns failure yet leaves `sig_pos`
advanced from 0 to 4 — the inner `next_item` advances the signature cursor
before its bounds check fails.  So a failing operation does not leave the
reader unchanged. -/
theorem C1_counterexample :
    (_gvariant_iter_init 0 ['(', 's', 's', ')'] none [] 0).1 = .ok iterC1 ∧
    (_gvariant_iter_enter_struct iterC1).1 = .fail ∧
    iterC1.sigPos = 0 ∧
    (_gvariant_iter_enter_struct iterC1).2.sigPos = 4 := by
  refine ⟨?_, ?_, rfl, ?_⟩ <;> decide

/-- C1 (amended): a failure detected by the guards that run before
`next_item` — `pos ≥ len` or a signature/type mismatch in
`_gvariant_iter_next_entry_basic`, or the wrong signature character in an
`enter_*` operation — leaves every field of the reader unchanged; but when
the inner `next_item` fails after advancing, `sig_pos`, `pos` and `offsets`
may differ after the failed call. -/
theorem C1_guard_failures_leave_unchanged (it : Iter) (t : Char) :
    ((it.len ≤ it.pos ∨ sigCharAt it ≠ t) →
      _gvariant_iter_next_entry_basic it t = (.fail, it)) ∧
    ((sigCharAt it ≠ '\x7b' ∧ sigCharAt it ≠ '(') →
      _gvariant_iter_enter_struct it = (.fail, it)) ∧
    (sigCharAt it ≠ 'a' → _gvariant_iter_enter_array it = (.fail, it)) ∧
    (sigCharAt it ≠ 'v' → _gvariant_iter_enter_variant it = (.fail, it)) := by
  refine ⟨?_, ?_, ?_, ?_⟩
  · intro h
    unfold _gvariant_iter_next_entry_basic
    by_cases g1 : it.len ≤ it.pos
    · rw [if_pos g1]
    · rcases h with h | h
      · exact absurd h g1
      · rw [if_neg g1, if_pos h]
  · intro ⟨h1, h2⟩
    unfold _gvariant_iter_enter_struct
    rw [if_pos]
    intro hc
    rcases hc with hc | hc
    · exact h1 hc
    · exact h2 hc
  · intro h
    unfold _gvariant_iter_enter_array
    rw [if_pos h]
  · intro h
    unfold _gvariant_iter_enter_variant
    rw [if_pos h]

/-- A reader whose next signature character matches no extraction, for the
C1 witness. -/
def iterC1w : Iter :=
  { message := 0
    sigStart := ['z']
    sigLen := 1
    sigPos := 0
    data := [0]
    len := 1
    pos := 0
    containerType := .struct
    offsets := none }

/-- C1 witness: the amended statement applied at a concrete reader whose
guards all reject. -/
theorem C1_guard_failures_witness :
    _gvariant_iter_next_entry_basic iterC1w 'i' = (.fail, iterC1w) ∧
    _gvariant_iter_enter_struct iterC1w = (.fail, iterC1w) ∧
    _gvariant_iter_enter_array iterC1w = (.fail, iterC1w) ∧
    _gvariant_iter_enter_variant iterC1w = (.fail, iterC1w) :=
  ⟨(C1_guard_failures_leave_unchanged iterC1w 'i').1 (Or.inr (by decide)),
   (C1_guard_failures_leave_unchanged iterC1w 'i').2.1 ⟨by decide, by decide⟩,
   (C1_guard_failures_leave_unchanged iterC1w 'i').2.2.1 (by decide),
   (C1_guard_failures_leave_unchanged iterC1w 'i').2.2.2 (by decide)⟩

/-! ### C2, C3, C4, C9: concrete evidence -/

/-- The bytes of the NUL-terminated C string starting at offset `i` of the
buffer. -/
def cstringAt (d : List Nat) (i : Nat) : List Nat :=
  (d.drop i).takeWhile (· ≠ 0)

/-- The reader produced by `_gvariant_iter_init` over signature "i" with a
one-byte frame. -/
def iterC2 : Iter :=
  { message := 0
    sigStart := ['i']
    sigLen := 1
    sigPos := 0
    data := [0]
    len := 1
    pos := 0
    containerType := .struct
    offsets := none }

/-- C2: the code accepts the truncated frame.  Initializing over signature
"i" with a frame of length 1 succeeds (the `end > len` check of the second
init loop is skipped for child 0), and `_gvariant_iter_next_entry_basic`
returns true, granting a 4-byte extent `[0, 4)` that overruns the 1-byte
frame — the claim (and spec scenario S7) says it must return false. -/
theorem C2_truncated_frame_accepted :
    (_gvariant_iter_init 0 ['i'] none [0] 1).1 = .ok iterC2 ∧
    (_gvariant_iter_next_entry_basic iterC2 'i').1 = .ok (some (.i32 0)) ∧
    (_gvariant_iter_next_entry_basic iterC2 'i').2.pos = 4 := by
  refine ⟨?_, ?_, ?_⟩ <;> decide

/-- The reader produced by `_gvariant_iter_init` over signature "si" with the
9-byte frame `68 69 00 00 07 00 00 00 03`. -/
def iterC3 : Iter :=
  { message := 0
    sigStart := ['s', 'i']
    sigLen := 2
    sigPos := 0
    data := [0x68, 0x69, 0, 0, 7, 0, 0, 0, 3]
    len := 9
    pos := 0
    containerType := .struct
    offsets := some 8 }

/-- C3: on the 9-byte frame `68 69 00 <pad> 07 00 00 00 03` read as a struct
with signature "si", `next_basic('s')` succeeds with the borrowed pointer at
offset 0 — the NUL-terminated string there is "hi" (bytes 68 69) — and the
subsequent `next_basic('i')` succeeds with the value 7. -/
theorem C3_struct_si_hi_7 :
    (_gvariant_iter_init 0 ['s', 'i'] none [0x68, 0x69, 0, 0, 7, 0, 0, 0, 3] 9).1 =
      .ok iterC3 ∧
    (_gvariant_iter_next_entry_basic iterC3 's').1 = .ok (some (.strp 0)) ∧
    cstringAt iterC3.data 0 = [0x68, 0x69] ∧
    (_gvariant_iter_next_entry_basic
      ((_gvariant_iter_next_entry_basic iterC3 's').2) 'i').1 = .ok (some (.i32 7)) := by
  refine ⟨?_, ?_, ?_, ?_⟩ <;> decide

/-- C4: on the one-character string "\x7b" the validator's dictionary-key
check passes on the terminating NUL (strchr also matches the terminator of
`simple_types`), and the recursive call scans past the end of the string: the
instrumented scan records the past-the-end access (second component true),
so `_gvariant_valid_signature` does not return a boolean by defined behavior
on every byte string, and the recursion is not well-founded on the remaining
string. -/
theorem C4_brace_scans_past_end :
    _gvariant_valid_signature_o ['\x7b'] = (false, true) ∧
    (validate_next_type_o ['\x7b']).2 = true := by
  refine ⟨?_, ?_⟩ <;> decide

/-- C9 counterexample: initializing an ARRAY reader over the variable-size
element signature "s" with an empty frame (`len = 0`) reads the
offset-table-start word at address `len - W = -1`, one byte before the frame
— the very read the claim says does not happen. -/
theorem C9_counterexample :
    (gvariant_iter_init_internal 0 .array ['s'] none [] 0).2 = [(-1, 1)] ∧
    (-1 : Int) < 0 := by
  refine ⟨?_, ?_⟩ <;> decide

/-! ### C10: the three string-like types decode identically -/

/-- C10: for `t` any of 's', 'o', 'g', `_gvariant_iter_next_entry_basic`
decodes by one and the same code path: after the guards, the child extent is
accepted exactly when `memchr` finds a NUL byte inside it (no UTF-8 check for
's', no object-path syntax check for 'o', no signature-validity check for
'g'), and the stored value is the borrowed pointer to the start of the
extent. -/
theorem C10_stringlike_decode (it : Iter) (t : Char)
    (ht : t = 's' ∨ t = 'o' ∨ t = 'g') :
    _gvariant_iter_next_entry_basic it t =
      (if it.len ≤ it.pos then (.fail, it)
       else if sigCharAt it ≠ t then (.fail, it)
       else
         match next_item it with
         | (.ok start sz, it') =>
           (match memchrIdx it.data 0 start sz with
            | none => (.fail, it')
            | some _ => (.ok (some (.strp start)), it'))
         | (.fail, it') => (.fail, it')
         | (.ub, it') => (.ub, it')) := by
  unfold _gvariant_iter_next_entry_basic
  by_cases g1 : it.len ≤ it.pos
  · rw [if_pos g1, if_pos g1]
  · rw [if_neg g1, if_neg g1]
    by_cases g2 : sigCharAt it ≠ t
    · rw [if_pos g2, if_pos g2]
    · rw [if_neg g2, if_neg g2]
      rcases hni : next_item it with ⟨res, it'⟩
      cases res with
      | ok s z =>
        simp only
        rw [if_pos ht]
      | fail => simp only
      | ub => simp only

/-- The reader produced by `_gvariant_iter_init` over signature "s" with the
3-byte frame "hi\x00", for the C10 witness. -/
def iterC10 : Iter :=
  { message := 0
    sigStart := ['s']
    sigLen := 1
    sigPos := 0
    data := [0x68, 0x69, 0]
    len := 3
    pos := 0
    containerType := .struct
    offsets := none }

/-- C10 witness: the statement applied at `t = 's'` on a concrete reader. -/
theorem C10_stringlike_decode_witness :
    ('s' = 's' ∨ 's' = 'o' ∨ 's' = 'g') ∧
    _gvariant_iter_next_entry_basic iterC10 's' =
      (if iterC10.len ≤ iterC10.pos then (.fail, iterC10)
       else if sigCharAt iterC10 ≠ 's' then (.fail, iterC10)
       else
         match next_item iterC10 with
         | (.ok start sz, it') =>
           (match memchrIdx iterC10.data 0 start sz with
            | none => (.fail, it')
            | some _ => (.ok (some (.strp start)), it'))
         | (.fail, it') => (.fail, it')
         | (.ub, it') => (.ub, it')) :=
  ⟨Or.inl rfl, C10_stringlike_decode iterC10 's' (Or.inl rfl)⟩

/-! ### C9: init reads stay inside the frame (amended) -/

theorem offset_length_le_len {len : Nat} (h : 1 ≤ len) :
    offset_length len 0 ≤ len := by
  unfold offset_length
  split
  · omega
  · split
    · omega
    · split <;> omega

theorem sizeLoop_reads_bounded (data : List Nat) (len W last_offset : Nat) :
    ∀ children (first : Bool) (prevEnd v numVar : Nat),
      (v + numVar) * W ≤ len →
      ∀ p ∈ (sizeLoop data len W last_offset children first prevEnd v numVar).2,
        0 ≤ p.1 ∧ p.1 + (p.2 : Int) ≤ (len : Int) ∧ p.2 = W := by
  intro children
  induction children with
  | nil =>
    intro first prevEnd v numVar h p hp
    simp [sizeLoop] at hp
  | cons ci rest ih =>
    intro first prevEnd v numVar h p hp
    unfold sizeLoop at hp
    by_cases hf : ci.fixedSize = true
    · rw [if_pos hf] at hp
      by_cases hfirst : first = true
      · rw [if_pos hfirst] at hp
        exact ih false ci.endOff v numVar h p hp
      · rw [if_neg hfirst] at hp
        dsimp only at hp
        split at hp
        · simp at hp
        · exact ih false _ v numVar h p hp
    · rw [if_neg hf] at hp
      by_cases hnv : numVar = 0
      · rw [if_pos hnv] at hp
        exact ih false last_offset v numVar h p hp
      · rw [if_neg hnv] at hp
        dsimp only at hp
        have hW1 : W * (v + 1) ≤ len := by
          calc W * (v + 1) ≤ W * (v + numVar) :=
                Nat.mul_le_mul_left W (by omega)
          _ = (v + numVar) * W := Nat.mul_comm _ _
          _ ≤ len := h
        have key : ((W * (v + 1) : Nat) : Int) ≤ ((len : Nat) : Int) := by
          exact_mod_cast hW1
        have hW0 : (0 : Int) ≤ (W : Int) * ((v : Nat) : Int) := by positivity
        split at hp
        · simp at hp
          subst hp
          refine ⟨?_, ?_, rfl⟩
          · dsimp only
            push_cast at key ⊢
            nlinarith
          · dsimp only
            push_cast at key ⊢
            nlinarith
        · simp at hp
          rcases hp with hp | hp
          · subst hp
            refine ⟨?_, ?_, rfl⟩
            · dsimp only
              push_cast at key ⊢
              nlinarith
            · dsimp only
              push_cast at key ⊢
              nlinarith
          · have hb : (v + 1 + (numVar - 1)) * W ≤ len := by
              have hvn : v + 1 + (numVar - 1) = v + numVar := by omega
              rw [hvn]
              exact h
            exact ih false _ (v + 1) (numVar - 1) hb p hp

/-- Whether the first complete type of the signature window is variable-size
(`!children[0].fixed_size` as computed by the first init loop). -/
def firstChildVariable (sigStart : List Char) : Bool :=
  match validate_next_type sigStart with
  | .ok r _ => ! _gvariant_is_fixed_size (sigStart.take (sigStart.length - r.length))
  | _ => false

theorem parseChildren_first {sigStart : List Char} {n : Nat} {c0 : ChildInfo}
    {rest : List ChildInfo}
    (h : parseChildren sigStart (n + 1) 0 = some (c0 :: rest)) :
    c0.fixedSize = ! firstChildVariable sigStart := by
  unfold parseChildren at h
  unfold firstChildVariable
  rw [List.drop_zero] at h
  cases hv : validate_next_type sigStart with
  | ok r a =>
    rw [hv] at h
    dsimp only at h ⊢
    cases hp : parseChildren sigStart n (0 + (sigStart.length - 0 - r.length)) with
    | some rest2 =>
      rw [hp] at h
      injection h with h1
      injection h1 with h2 h3
      rw [← h2]
      simp
    | none =>
      rw [hp] at h
      cases h
  | fail =>
    rw [hv] at h
    simp at h
  | nofuel =>
    rw [hv] at h
    simp at h

theorem parseChildren_first_any {sigStart : List Char} {n : Nat} {c0 : ChildInfo}
    {rest : List ChildInfo}
    (h : parseChildren sigStart n 0 = some (c0 :: rest)) :
    c0.fixedSize = ! firstChildVariable sigStart := by
  cases n with
  | zero =>
    unfold parseChildren at h
    injection h with h1
    cases h1
  | succ n => exact parseChildren_first h

/-- C9 (amended): every byte read performed by `gvariant_iter_init_internal`
lies within the supplied frame `[0, len)`, EXCEPT in the case the original
claim asserts safe as well: an ARRAY reader over a variable-size element type
with `len = 0`, where the offset-table word is read at address `len - W = -1`,
before the frame (refuted by the counterexample above).  Outside that one
configuration, every recorded read `(addr, w)` satisfies
`0 ≤ addr ∧ addr + w ≤ len`. -/
theorem C9_init_reads_in_frame (message : Nat) (ctype : ContainerType)
    (sigStart : List Char) (sigEndLen : Option Nat) (data : List Nat) (len : Nat)
    (h : ¬(ctype = .array ∧ len = 0 ∧ firstChildVariable sigStart = true)) :
    ∀ p ∈ (gvariant_iter_init_internal message ctype sigStart sigEndLen data len).2,
      0 ≤ p.1 ∧ p.1 + (p.2 : Int) ≤ (len : Int) := by
  intro p hp
  unfold gvariant_iter_init_internal at hp
  dsimp only at hp
  split at hp
  · simp at hp
  · split at hp
    next => simp at hp
    next children heq =>
      split at hp
      next => simp at hp
      next hlen =>
        have hb : (0 + numVariableOf children) * offset_length len 0 ≤ len := by
          rw [Nat.zero_add]
          exact Nat.le_of_not_lt hlen
        split at hp
        next reads heqsz =>
          simp at hp
          have hres := sizeLoop_reads_bounded data len (offset_length len 0)
            (len - numVariableOf children * offset_length len 0) children true 0 0
            (numVariableOf children) hb p (by rw [heqsz]; exact hp)
          exact ⟨hres.1, hres.2.1⟩
        next reads heqsz =>
          split at hp
          next hct =>
            split at hp
            next =>
              simp at hp
              have hres := sizeLoop_reads_bounded data len (offset_length len 0)
                (len - numVariableOf ([] : List ChildInfo) * offset_length len 0)
                ([] : List ChildInfo) true 0 0
                (numVariableOf ([] : List ChildInfo)) hb p (by rw [heqsz]; exact hp)
              exact ⟨hres.1, hres.2.1⟩
            next c0 rest0 =>
              split at hp
              next =>
                simp at hp
                have hres := sizeLoop_reads_bounded data len (offset_length len 0)
                  (len - numVariableOf (c0 :: rest0) * offset_length len 0) (c0 :: rest0)
                  true 0 0 (numVariableOf (c0 :: rest0)) hb p (by rw [heqsz]; exact hp)
                exact ⟨hres.1, hres.2.1⟩
              next hfix =>
                simp at hp
                rcases hp with hp | hp
                · have hres := sizeLoop_reads_bounded data len (offset_length len 0)
                    (len - numVariableOf (c0 :: rest0) * offset_length len 0) (c0 :: rest0)
                    true 0 0 (numVariableOf (c0 :: rest0)) hb p (by rw [heqsz]; exact hp)
                  exact ⟨hres.1, hres.2.1⟩
                · have hfcv : firstChildVariable sigStart = true := by
                    have hpc := parseChildren_first_any heq
                    cases hv : firstChildVariable sigStart
                    · rw [hv] at hpc
                      simp at hpc
                      exact absurd hpc hfix
                    · rfl
                  have hlen0 : len ≠ 0 := by
                    intro hl
                    exact h ⟨hct, hl, hfcv⟩
                  have hWle : offset_length len 0 ≤ len :=
                    offset_length_le_len (by omega)
                  subst hp
                  dsimp only
                  constructor
                  · omega
                  · omega
          next =>
            simp at hp
            have hres := sizeLoop_reads_bounded data len (offset_length len 0)
              (len - numVariableOf children * offset_length len 0) children true 0 0
              (numVariableOf children) hb p (by rw [heqsz]; exact hp)
            exact ⟨hres.1, hres.2.1⟩

theorem C9_init_reads_in_frame_witness :
    (¬((ContainerType.struct) = .array ∧ (9 : Nat) = 0 ∧
        firstChildVariable [Char.ofNat 115, Char.ofNat 105] = true)) ∧
    ((0 : Int) ≤ (8 : Int) ∧ (8 : Int) + ((1 : Nat) : Int) ≤ ((9 : Nat) : Int)) :=
  ⟨by decide,
   C9_init_reads_in_frame 0 .struct [Char.ofNat 115, Char.ofNat 105] none
     [0x68, 0x69, 0, 0, 7, 0, 0, 0, 3] 9 (by decide) ((8 : Int), (1 : Nat)) (by decide)⟩

/-! ### Locality of the validator: appending a suffix -/

theorem validate_append :
    ∀ f, (∀ s t r a, validateNT f s = .ok r a →
            validateNT f (s ++ t) = .ok (r ++ t) a) ∧
      (∀ s m t r a, validateList f s m = .ok r a →
            validateList f (s ++ t) m = .ok (r ++ t) a) := by
  intro f
  induction f with
  | zero => constructor <;> intro s <;> intros <;> simp_all [validateNT, validateList]
  | succ f ih =>
    obtain ⟨ihNT, ihL⟩ := ih
    constructor
    · intro s t r a h
      match s with
      | [] => rw [validateNT_nil] at h; cases h
      | c :: rest =>
        rw [List.cons_append]
        by_cases h1 : simple_types.contains c ∨ c = 'v'
        · rw [validateNT_simple _ _ _ h1] at h
          injection h with hr ha
          subst hr; subst ha
          rw [validateNT_simple _ _ _ h1]
        · by_cases h2 : c = 'a'
          · subst h2
            rw [validateNT_a] at h
            rw [validateNT_a]
            exact ihNT rest t r a h
          · by_cases h3 : c = '\x7b'
            · subst h3
              match rest with
              | [] => rw [validateNT_brace_nil] at h; cases h
              | k :: rest2 =>
                by_cases hk : simple_types.contains k
                · rw [validateNT_brace f k rest2 hk] at h
                  obtain ⟨a', hv, ha⟩ := dictClose_eq_ok h
                  rw [List.cons_append, validateNT_brace f k (rest2 ++ t) hk]
                  rw [ihNT rest2 t _ a' hv]
                  subst ha
                  rfl
                · rw [validateNT_brace_bad f k rest2 hk] at h; cases h
            · by_cases h4 : c = '('
              · subst h4
                rw [validateNT_paren] at h
                rw [validateNT_paren]
                exact ihL rest 1 t r a h
              · rw [validateNT_other f _ _ h1 h2 h3 h4] at h; cases h
    · intro s m t r a h
      match s with
      | [] =>
        rw [validateList_step f [] m (by decide)] at h
        match f, h with
        | 0, h => cases h
        | f' + 1, h => rw [validateNT_nil] at h; cases h
      | c :: r' =>
        by_cases hc : c = ')'
        · subst hc
          rw [validateList_close] at h
          injection h with hr hm
          subst hr; subst hm
          rw [List.cons_append, validateList_close]
        · have hh : headChar (c :: r') ≠ ')' := hc
          have hh2 : headChar ((c :: r') ++ t) ≠ ')' := hc
          rw [validateList_step f _ m hh] at h
          rw [validateList_step f _ m hh2]
          cases hv : validateNT f (c :: r') with
          | ok r1 a1 =>
            rw [hv] at h
            rw [ihNT _ t _ _ hv]
            exact ihL r1 (max m a1) t r a h
          | fail => rw [hv] at h; cases h
          | nofuel => rw [hv] at h; cases h

theorem vnt_append {s t r : List Char} {a : Nat}
    (h : validate_next_type s = .ok r a) :
    validate_next_type (s ++ t) = .ok (r ++ t) a := by
  have hstep := (validate_append (2 * s.length + 2)).1 s t r a h
  have hne : validateNT (2 * s.length + 2) (s ++ t) ≠ .nofuel := by
    rw [hstep]; intro hc; cases hc
  unfold validate_next_type
  rw [validateNT_stable (s ++ t) (by simp only [List.length_append]; omega) hne]
  exact hstep

theorem vlw_append {s t r : List Char} {m a : Nat}
    (h : validateListW s m = .ok r a) :
    validateListW (s ++ t) m = .ok (r ++ t) a := by
  have hstep := (validate_append (2 * s.length + 3)).2 s m t r a h
  have hne : validateList (2 * s.length + 3) (s ++ t) m ≠ .nofuel := by
    rw [hstep]; intro hc; cases hc
  unfold validateListW
  rw [validateList_stable (s ++ t) m (by simp only [List.length_append]; omega) hne]
  exact hstep

/-! ### `memrchr`: the found index is the last occurrence -/

theorem memrchrIdx_spec {d : List Nat} {c : Nat} :
    ∀ {n base i : Nat}, memrchrIdx d c base n = some i →
      base ≤ i ∧ i < base + n ∧ readByteN d i = c ∧
        ∀ j, i < j → j < base + n → readByteN d j ≠ c := by
  intro n
  induction n with
  | zero => intro base i h; simp [memrchrIdx] at h
  | succ n ih =>
    intro base i h
    unfold memrchrIdx at h
    split at h
    next hb =>
      injection h with hi
      subst hi
      exact ⟨by omega, by omega, hb, fun j h1 h2 => by omega⟩
    next hb =>
      obtain ⟨h1, h2, h3, h4⟩ := ih h
      refine ⟨h1, by omega, h3, ?_⟩
      intro j hj1 hj2
      by_cases hj : j = base + n
      · subst hj; exact hb
      · exact h4 j hj1 (by omega)

/-- A pointwise byte-indexed read of a slice equals the slice itself when it
lies inside the modelled buffer. -/
theorem range_map_getD (l : List Nat) (a n : Nat) (f : Nat → Char)
    (h : a + n ≤ l.length) :
    (List.range n).map (fun j => f (l.getD (a + j) 0)) = ((l.drop a).take n).map f := by
  apply List.ext_getElem
  · simp only [List.length_map, List.length_range, List.length_take, List.length_drop]
    omega
  · intro i h1 h2
    simp only [List.length_map, List.length_range] at h1
    simp only [List.getElem_map, List.getElem_range, List.getElem_take, List.getElem_drop]
    congr 1
    rw [List.getD_eq_getElem l 0 (by omega)]

theorem takeWhile_eq_self_of (p : Char → Bool) :
    ∀ l : List Char, (∀ x ∈ l, p x = true) → List.takeWhile p l = l := by
  intro l
  induction l with
  | nil => intro h; rfl
  | cons c r ih =>
    intro h
    rw [List.takeWhile_cons, if_pos (h c (by simp))]
    rw [ih (fun x hx => h x (by simp [hx]))]

theorem valid_sig_head {s : List Char} (h : _gvariant_valid_signature s = true) :
    ∃ r a, validate_next_type s = .ok r a := by
  rw [valid_signature_step] at h
  cases hv : validate_next_type s with
  | ok r a => exact ⟨r, a, rfl⟩
  | fail => rw [hv] at h; simp at h
  | nofuel => rw [hv] at h; simp at h

/-- Evaluation of `gvariant_iter_init_internal` for a VARIANT child whose
(≤ 255 byte) signature window holds exactly one complete type: the init
always succeeds, performs no data reads, and the resulting reader has
`offsets = NULL` (a single child is never a non-last variable child). -/
theorem variant_init_eval (message : Nat) (S : List Char) (L : Nat)
    (data2 : List Nat) (len2 : Nat) (r : List Char) (a : Nat)
    (hL : L < 256)
    (hnch : _gvariant_num_children (S.take L) = 1)
    (hval : validate_next_type S = .ok r a) :
    gvariant_iter_init_internal message .variant S (some L) data2 len2 =
      (.ok { message := message, sigStart := S,
             sigLen := ((S.take L).takeWhile (· ≠ '\x00')).length,
             sigPos := 0, data := data2, len := len2, pos := 0,
             containerType := .variant, offsets := none }, []) := by
  have hpc : parseChildren S 1 0 =
      some [{ fixedSize := _gvariant_is_fixed_size (S.take (S.length - 0 - r.length)),
              alignment := a,
              endOff :=
                if _gvariant_is_fixed_size (S.take (S.length - 0 - r.length)) = true then
                  _gvariant_get_fixed_size (S.take (S.length - 0 - r.length))
                else 0 }] := by
    unfold parseChildren
    rw [List.drop_zero, hval]
    dsimp only
    rw [show parseChildren S 0 (0 + (S.length - 0 - r.length)) = some [] from rfl]
  unfold gvariant_iter_init_internal
  dsimp only
  rw [if_neg (by omega : ¬ 256 ≤ L)]
  rw [hnch]
  rw [show (((1 : Int)).emod 256).toNat = 1 from rfl]
  rw [hpc]
  dsimp only
  have hnv1 : ∀ ci : ChildInfo, numVariableOf [ci] = 0 := fun ci => rfl
  rw [hnv1]
  rw [if_neg (by omega : ¬ len2 < 0 * offset_length len2 0)]
  have hsl : ∀ ci : ChildInfo, sizeLoop data2 len2 (offset_length len2 0) (len2 - 0 * offset_length len2 0)
      [ci] true 0 0 0 = (true, []) := by
    intro ci
    unfold sizeLoop
    by_cases hf : ci.fixedSize = true
    · rw [if_pos hf, if_pos rfl]
      rfl
    · rw [if_neg hf, if_pos rfl]
      rfl
  rw [hsl]
  dsimp only
  rw [if_neg (by decide : ¬ (ContainerType.variant = ContainerType.array))]
  rfl

theorem charOfByte_toNat {b : Nat} (hb : b < 256) : (charOfByte b).toNat = b := by
  unfold charOfByte
  rw [Nat.mod_eq_of_lt hb]
  have hval : b.isValidChar := Or.inl (by omega)
  unfold Char.ofNat
  rw [dif_pos hval]
  unfold Char.ofNatAux Char.toNat
  simp [UInt32.toNat, UInt32.ofNat', BitVec.toNat_ofNatLt]

theorem charOfByte_ne_nul {b : Nat} (hb : b < 256) (h0 : b ≠ 0) :
    charOfByte b ≠ '\x00' := by
  intro h
  have := charOfByte_toNat hb
  rw [h] at this
  exact h0 (by simpa using this.symm)

/-- The reader of the C6 counterexample: a STRUCT reader over signature
"v" whose single variant child carries a 255-byte signature
`(yyy...y)` (253 `y`s in brackets), preceded by the separating NUL. -/
def sig255v : List Char := '(' :: (List.replicate 253 'y' ++ [')'])

def dataV255 : List Nat := 0 :: (0x28 :: (List.replicate 253 0x79 ++ [0x29]))

def itV255 : Iter :=
  { message := 0
    sigStart := ['v']
    sigLen := 1
    sigPos := 0
    data := dataV255
    len := 256
    pos := 0
    containerType := .struct
    offsets := none }

set_option maxRecDepth 40000 in
/-- C6 counterexample: at `itV255` every condition of the claim holds — the
child extent `[0, 256)` found by `next_item` contains a NUL (reverse search
finds it at offset 0), the 255 bytes after it are at most 255 bytes, form a
valid signature and contain exactly one complete type — yet
`_gvariant_iter_enter_variant` does not succeed: the C code copies the 255
signature bytes into the local `char signature[255]` and then stores the
terminating NUL at `signature[255]`, one past the end of the buffer
(undefined behavior, modelled as `ub`).  This refutes the claimed
"succeeds if ... at most 255 bytes" at the 255-byte boundary. -/
theorem C6_counterexample :
    (next_item itV255).1 = NIRes.ok 0 256 ∧
    memrchrIdx itV255.data 0 0 256 = some 0 ∧
    sig255v = ((itV255.data.drop 1).take 255).map charOfByte ∧
    sig255v.length ≤ 255 ∧
    _gvariant_valid_signature sig255v = true ∧
    _gvariant_num_children sig255v = 1 ∧
    (_gvariant_iter_enter_variant itV255).1 = EnterRes.ub := by
  decide

theorem range_map_readByteN (l : List Nat) (a n : Nat) (f : Nat → Char)
    (h : a + n ≤ l.length) :
    (List.range n).map (fun j => f (readByteN l (a + j))) =
      ((l.drop a).take n).map f :=
  range_map_getD l a n f h

theorem slice_map_char_no_nul {l : List Nat} {a n : Nat}
    (hlen : a + n ≤ l.length)
    (hbytes : ∀ b ∈ l, b < 256)
    (hnz : ∀ j, a ≤ j → j < a + n → readByteN l j ≠ 0) :
    ∀ x ∈ ((l.drop a).take n).map charOfByte, (x ≠ '\x00') = True := by
  intro x hx
  simp only [List.mem_map] at hx
  obtain ⟨b, hb, rfl⟩ := hx
  obtain ⟨i, hi, hEq⟩ := List.mem_iff_getElem.mp hb
  have hiL : i < n := by
    simp only [List.length_take, List.length_drop] at hi
    omega
  rw [List.getElem_take, List.getElem_drop] at hEq
  have hblt : b < 256 := hbytes b (by rw [← hEq]; exact List.getElem_mem _)
  have hbyte : readByteN l (a + i) = b := by
    unfold readByteN
    rw [List.getD_eq_getElem l 0 (by omega), hEq]
  have hbnz : b ≠ 0 := by
    intro h0
    exact hnz (a + i) (by omega) (by omega) (by rw [hbyte, h0])
  simp [charOfByte_ne_nul hblt hbnz]

/-- C6 (amended): for a reader positioned on `'v'` whose `next_item` call
succeeds with a child extent lying inside the modelled data buffer (bytes
`< 256`), `_gvariant_iter_enter_variant` succeeds if and only if the extent
contains a NUL byte (found by reverse search), the bytes after the last NUL
number FEWER than 255 (the claim's "at most 255" is refuted by the
counterexample above: at exactly 255 bytes the local `char signature[255]`
copy overflows), form a valid signature, and hold exactly one complete
type; on success the child reader's data extent is `[start, nul)` and its
signature window is exactly the bytes after that NUL. -/
theorem C6_enter_variant_characterization (it : Iter) (start sz : Nat) (it2 : Iter)
    (hv : sigCharAt it = 'v')
    (hnext : next_item it = (NIRes.ok start sz, it2))
    (hdata : start + sz ≤ it.data.length)
    (hbytes : ∀ b ∈ it.data, b < 256) :
    ((∃ child, (_gvariant_iter_enter_variant it).1 = EnterRes.ok child) ↔
      (∃ nul, memrchrIdx it.data 0 start sz = some nul ∧
        start + sz - nul - 1 < 255 ∧
        _gvariant_valid_signature
          (((it.data.drop (nul + 1)).take (start + sz - nul - 1)).map charOfByte) = true ∧
        _gvariant_num_children
          (((it.data.drop (nul + 1)).take (start + sz - nul - 1)).map charOfByte) = 1)) ∧
    (∀ nul child, memrchrIdx it.data 0 start sz = some nul →
      (_gvariant_iter_enter_variant it).1 = EnterRes.ok child →
      child.data = it.data.drop start ∧ child.len = nul - start ∧
      child.sigStart = (it.data.drop (nul + 1)).map charOfByte ∧
      child.sigLen = start + sz - nul - 1 ∧
      child.sigPos = 0 ∧ child.pos = 0 ∧
      child.containerType = ContainerType.variant) := by
  have hvn : ¬ (sigCharAt it ≠ 'v') := by simp [hv]
  unfold _gvariant_iter_enter_variant
  rw [if_neg hvn, hnext]
  dsimp only
  cases hm : memrchrIdx it.data 0 start sz with
  | none =>
    dsimp only
    constructor
    · constructor
      · rintro ⟨child, hc⟩
        cases hc
      · rintro ⟨nul, hq, -⟩
        cases hq
    · intro nul child hq
      cases hq
  | some nulv =>
    dsimp only
    obtain ⟨hge, hlt, hz, hlast⟩ := memrchrIdx_spec hm
    have hLbound : (nulv + 1) + (start + sz - nulv - 1) ≤ it.data.length := by omega
    rw [range_map_readByteN it.data (nulv + 1) (start + sz - nulv - 1) charOfByte hLbound]
    by_cases h255 : 255 < start + sz - nulv - 1
    · rw [if_pos h255]
      constructor
      · constructor
        · rintro ⟨child, hc⟩
          cases hc
        · rintro ⟨nul, hq, hc, -⟩
          injection hq with hq'
          omega
      · intro nul child hq hc
        cases hc
    · rw [if_neg h255]
      by_cases h255e : start + sz - nulv - 1 = 255
      · rw [if_pos h255e]
        constructor
        · constructor
          · rintro ⟨child, hc⟩
            cases hc
          · rintro ⟨nul, hq, hc, -⟩
            injection hq with hq'
            omega
        · intro nul child hq hc
          cases hc
      · rw [if_neg h255e]
        by_cases hval : _gvariant_valid_signature
            (((it.data.drop (nulv + 1)).take (start + sz - nulv - 1)).map charOfByte) = true
        · rw [if_neg (fun hc => hc hval)]
          by_cases hnch : _gvariant_num_children
              (((it.data.drop (nulv + 1)).take (start + sz - nulv - 1)).map charOfByte) = 1
          · rw [if_neg (fun hc => hc hnch)]
            rw [show start + sz - (nulv + 1) = start + sz - nulv - 1 from by omega]
            have hmt : ((it.data.drop (nulv + 1)).take (start + sz - nulv - 1)).map charOfByte =
                ((it.data.drop (nulv + 1)).map charOfByte).take (start + sz - nulv - 1) :=
              List.map_take charOfByte (it.data.drop (nulv + 1)) (start + sz - nulv - 1)
            obtain ⟨r0, a0, h0⟩ := valid_sig_head hval
            rw [hmt] at h0
            have happ := vnt_append
              (t := ((it.data.drop (nulv + 1)).map charOfByte).drop (start + sz - nulv - 1)) h0
            rw [List.take_append_drop] at happ
            have hnch' : _gvariant_num_children
                (((it.data.drop (nulv + 1)).map charOfByte).take (start + sz - nulv - 1)) = 1 := by
              rw [← hmt]; exact hnch
            rw [variant_init_eval it.message ((it.data.drop (nulv + 1)).map charOfByte)
              (start + sz - nulv - 1) (it.data.drop start) (nulv - start) _ a0
              (by omega) hnch' happ]
            dsimp only
            constructor
            · constructor
              · intro _
                exact ⟨nulv, rfl, by omega, hval, hnch⟩
              · intro _
                exact ⟨_, rfl⟩
            · intro nul child hq hok
              injection hq with hq'
              subst hq'
              injection hok with hok'
              subst hok'
              refine ⟨rfl, rfl, rfl, ?_, rfl, rfl, rfl⟩
              dsimp only
              rw [← hmt]
              rw [takeWhile_eq_self_of _ _ (fun x hx => by
                have := slice_map_char_no_nul hLbound hbytes
                  (fun j h1 h2 => hlast j (by omega) (by omega)) x hx
                simpa using this)]
              simp only [List.length_map, List.length_take, List.length_drop]
              omega
          · rw [if_pos (by simpa using hnch)]
            constructor
            · constructor
              · rintro ⟨child, hc⟩
                cases hc
              · rintro ⟨nul, hq, -, -, hc⟩
                injection hq with hq'
                subst hq'
                exact (hnch hc).elim
            · intro nul child hq hc
              cases hc
        · rw [if_pos hval]
          constructor
          · constructor
            · rintro ⟨child, hc⟩
              cases hc
            · rintro ⟨nul, hq, -, hc, -⟩
              injection hq with hq'
              subst hq'
              exact (hval hc).elim
          · intro nul child hq hc
            cases hc

/-- A small concrete variant: struct reader over "v", child payload is the
i32 42 at `[0,4)`, separating NUL at 4, signature byte 'i' at 5. -/
def itC6 : Iter :=
  { message := 0
    sigStart := ['v']
    sigLen := 1
    sigPos := 0
    data := [42, 0, 0, 0, 0, 0x69]
    len := 6
    pos := 0
    containerType := .struct
    offsets := none }

def itC6next : Iter :=
  { message := 0
    sigStart := ['v']
    sigLen := 1
    sigPos := 1
    data := [42, 0, 0, 0, 0, 0x69]
    len := 6
    pos := 6
    containerType := .struct
    offsets := none }

def childC6 : Iter :=
  { message := 0
    sigStart := ['i']
    sigLen := 1
    sigPos := 0
    data := [42, 0, 0, 0, 0, 0x69]
    len := 4
    pos := 0
    containerType := .variant
    offsets := none }

theorem C6_enter_variant_characterization_witness :
    childC6.data = itC6.data.drop 0 ∧ childC6.len = 4 - 0 ∧
    childC6.sigStart = (itC6.data.drop (4 + 1)).map charOfByte ∧
    childC6.sigLen = 0 + 6 - 4 - 1 ∧ childC6.sigPos = 0 ∧ childC6.pos = 0 ∧
    childC6.containerType = ContainerType.variant :=
  (C6_enter_variant_characterization itC6 0 6 itC6next (by decide) (by decide)
    (by decide) (by decide)).2 4 childC6 (by decide) (by decide)

/-! ### A grammar of fixed-size complete types

`FT T a σ` says the character string `T` is one complete type whose
`validate_next_type` alignment is `a` and whose standalone
`_gvariant_get_fixed_size` is `σ`, built only from fixed-size constructors
(basic fixed types, structs, dict entries).  `FTs M m sz al szo n` is a
concatenation of `n` such types folded through the scanners' running
accumulators exactly as the C loops do: alignment accumulator `m → al`
(maximum) and size accumulator `sz → szo`
(`sz ↦ align_len sz a + σ` per type). -/

theorem fixed_simple {c : Char} (h : fixed_types.contains c = true) :
    simple_types.contains c = true := by
  rcases mem_fixed_cases h with rfl | rfl | rfl | rfl | rfl | rfl | rfl | rfl | rfl | rfl <;>
    decide

theorem fixed_not_close {c : Char} (h : fixed_types.contains c = true) :
    c ≠ ')' ∧ c ≠ '\x7d' := by
  rcases mem_fixed_cases h with rfl | rfl | rfl | rfl | rfl | rfl | rfl | rfl | rfl | rfl <;>
    exact ⟨by decide, by decide⟩

theorem fixed_size_align {c : Char} (h : fixed_types.contains c = true) :
    1 ≤ get_basic_fixed_size c ∧
      get_basic_alignment c ∣ get_basic_fixed_size c ∧
      (get_basic_alignment c = 1 ∨ get_basic_alignment c = 2 ∨
        get_basic_alignment c = 4 ∨ get_basic_alignment c = 8) := by
  rcases mem_fixed_cases h with rfl | rfl | rfl | rfl | rfl | rfl | rfl | rfl | rfl | rfl <;>
    refine ⟨by decide, by decide, by decide⟩

mutual

inductive FT : List Char → Nat → Nat → Prop where
  | basic {c : Char} (h : fixed_types.contains c = true) :
      FT [c] (get_basic_alignment c) (get_basic_fixed_size c)
  | structE : FT ['(', ')'] 1 1
  | structN {M : List Char} {al szo n : Nat} (hne : M ≠ [])
      (h : FTs M 1 0 al szo n) :
      FT ('(' :: (M ++ [')'])) al (align_len szo al)
  | dict {k : Char} {V : List Char} {aV sV : Nat}
      (hk : simple_types.contains k = true)
      (hkf : fixed_types.contains k = true)
      (hV : FT V aV sV) :
      FT ('\x7b' :: k :: (V ++ ['\x7d']))
        (max (get_basic_alignment k) aV)
        (align_len
          (align_len (align_len 0 (get_basic_alignment k) + get_basic_fixed_size k) aV + sV)
          (max (max 1 (get_basic_alignment k)) aV))

inductive FTs : List Char → Nat → Nat → Nat → Nat → Nat → Prop where
  | nil {m sz : Nat} : FTs [] m sz m sz 0
  | cons {T M : List Char} {a s m sz al szo n : Nat}
      (hT : FT T a s)
      (hM : FTs M (max m a) (align_len sz a + s) al szo n) :
      FTs (T ++ M) m sz al szo (n + 1)

end

theorem FT_ne_nil {T : List Char} {a s : Nat} (h : FT T a s) : T ≠ [] := by
  cases h <;> simp

theorem FT_head {T : List Char} {a s : Nat} (h : FT T a s) :
    ∃ c T2, T = c :: T2 ∧ c ≠ '\x00' ∧ c ≠ ')' ∧ c ≠ '\x7d' := by
  cases h with
  | basic hc =>
    exact ⟨_, _, rfl, fixed_not_nul hc, (fixed_not_close hc).1, (fixed_not_close hc).2⟩
  | structE => exact ⟨'(', [')'], rfl, by decide, by decide, by decide⟩
  | structN hne hM => exact ⟨'(', _, rfl, by decide, by decide, by decide⟩
  | dict hk hkf hV => exact ⟨'\x7b', _, rfl, by decide, by decide, by decide⟩

theorem FTs_head {M : List Char} {m sz al szo n : Nat} (h : FTs M m sz al szo n) :
    M = [] ∨ ∃ c M2, M = c :: M2 ∧ c ≠ '\x00' ∧ c ≠ ')' ∧ c ≠ '\x7d' := by
  cases h with
  | nil => exact Or.inl rfl
  | cons hT hM =>
    right
    obtain ⟨c, T2, rfl, h1, h2, h3⟩ := FT_head hT
    exact ⟨c, _, rfl, h1, h2, h3⟩

theorem FTs_nil_inv {M : List Char} {m sz al szo n : Nat}
    (h : FTs M m sz al szo n) (hne : M = []) : m = al ∧ sz = szo ∧ n = 0 := by
  cases h with
  | nil => exact ⟨rfl, rfl, rfl⟩
  | cons hT hM =>
    obtain ⟨h1, h2⟩ := List.append_eq_nil.mp hne
    exact absurd h1 (FT_ne_nil hT)

theorem FTs_cons_inv {M : List Char} {m sz al szo n : Nat}
    (h : FTs M m sz al szo n) (hne : M ≠ []) :
    ∃ T a s M2 n2, FT T a s ∧ FTs M2 (max m a) (align_len sz a + s) al szo n2 ∧
      M = T ++ M2 ∧ n = n2 + 1 := by
  cases h with
  | nil => exact absurd rfl hne
  | cons hT hM => exact ⟨_, _, _, _, _, hT, hM, rfl, rfl⟩

/-- The simultaneous facts about the grammar: positivity and divisibility of
sizes, alignment range, soundness for `validate_next_type` /
`validateListW`, absence of variable-size and NUL characters, and the
evaluation of the `_gvariant_get_fixed_size` scan. -/
theorem FT_main : ∀ N : Nat,
    (∀ T a s, T.length ≤ N → FT T a s →
      1 ≤ s ∧ a ∣ s ∧ (a = 1 ∨ a = 2 ∨ a = 4 ∨ a = 8) ∧
      validate_next_type T = .ok [] a ∧
      (∀ c ∈ T, variable_types.contains c = false ∧ c ≠ '\x00') ∧
      (∀ rest size m, fixedSizeW (T ++ rest) size m =
        fixedSizeW rest (align_len size a + s) (max m a))) ∧
    (∀ M m sz al szo n, M.length ≤ N → FTs M m sz al szo n →
      (sz ≤ szo ∧ m ≤ al ∧ (M ≠ [] → sz + 1 ≤ szo) ∧ n ≤ M.length) ∧
      ((m = 1 ∨ m = 2 ∨ m = 4 ∨ m = 8) → (al = 1 ∨ al = 2 ∨ al = 4 ∨ al = 8)) ∧
      (∀ tail, validateListW (M ++ ')' :: tail) m = .ok tail al) ∧
      (∀ c ∈ M, variable_types.contains c = false ∧ c ≠ '\x00') ∧
      (∀ tail, headChar tail = '\x00' ∨ headChar tail = ')' ∨ headChar tail = '\x7d' →
        fixedSizeW (M ++ tail) sz m = some (align_len szo al))) := by
  intro N
  induction N with
  | zero =>
    constructor
    · intro T a s hlen hT
      exact absurd (List.length_eq_zero.mp (Nat.le_zero.mp hlen)) (FT_ne_nil hT)
    · intro M m sz al szo n hlen hM
      have hM0 : M = [] := List.length_eq_zero.mp (Nat.le_zero.mp hlen)
      subst hM0
      obtain ⟨rfl, rfl, rfl⟩ := FTs_nil_inv hM rfl
      refine ⟨⟨le_rfl, le_rfl, fun hc => absurd rfl hc, by simp⟩, fun h => h, ?_, by simp, ?_⟩
      · intro tail
        rw [List.nil_append]
        exact vlw_close tail m
      · intro tail hstop
        rw [List.nil_append]
        rcases tail with _ | ⟨c, t2⟩
        · exact fsW_nil sz m
        · rcases hstop with hc | hc | hc
          · have hc2 : c = '\x00' := hc
            subst hc2
            exact fsW_nul t2 sz m
          · have hc2 : c = ')' := hc
            subst hc2
            exact @fsW_break ')' t2 sz m (by decide) (by decide) (by decide) (Or.inr rfl)
          · have hc2 : c = '\x7d' := hc
            subst hc2
            exact @fsW_break '\x7d' t2 sz m (by decide) (by decide) (by decide) (Or.inl rfl)
  | succ N ih =>
    obtain ⟨ihP, ihQ⟩ := ih
    have hP : ∀ T a s, T.length ≤ N + 1 → FT T a s →
        1 ≤ s ∧ a ∣ s ∧ (a = 1 ∨ a = 2 ∨ a = 4 ∨ a = 8) ∧
        validate_next_type T = .ok [] a ∧
        (∀ c ∈ T, variable_types.contains c = false ∧ c ≠ '\x00') ∧
        (∀ rest size m, fixedSizeW (T ++ rest) size m =
          fixedSizeW rest (align_len size a + s) (max m a)) := by
      intro T a s hlen hT
      rcases hT with @⟨c, hc⟩ | ⟨⟩ | @⟨M1, al1, szo1, n1, hne, hQ⟩ | @⟨k, V, aV, sV, hk, hkf, hV⟩
      case basic =>
        obtain ⟨h1, h2, h3⟩ := fixed_size_align hc
        refine ⟨h1, h2, h3, ?_, ?_, ?_⟩
        · exact vnt_simple [] (Or.inl (fixed_simple hc))
        · intro c2 hc2
          simp only [List.mem_singleton] at hc2
          subst hc2
          exact ⟨by simpa using fixed_not_var hc, fixed_not_nul hc⟩
        · intro rest size m
          rw [List.singleton_append, fsW_fixed rest size m hc]
      case structE =>
        refine ⟨le_rfl, one_dvd 1, Or.inl rfl, ?_, by decide, ?_⟩
        · rw [show (['(', ')'] : List Char) = '(' :: [')'] from rfl, vnt_paren]
          exact vlw_close [] 1
        · intro rest size m
          rw [show ((['(', ')'] : List Char) ++ rest) = '(' :: ')' :: rest from rfl]
          rw [@fsW_container '(' (')' :: rest) size m (by decide) (by decide) (by decide)
            (by decide)]
          rw [vnt_paren (')' :: rest), vlw_close rest 1]
          dsimp only
          rw [if_pos (⟨rfl, rfl⟩ : '(' = '(' ∧ headChar (')' :: rest) = ')')]
          rfl
      case structN =>
        obtain ⟨⟨hsz, hm, hposQ, hcnt⟩, hq4, hq6, hq8, hq2⟩ :=
          ihQ _ _ _ _ _ _ (by simp only [List.length_cons, List.length_append,
            List.length_singleton] at hlen; omega) hQ
        have hszo1 : 1 ≤ szo1 := hposQ hne
        have hspos : 1 ≤ align_len szo1 a := le_trans hszo1 (align_len_ge _ _)
        refine ⟨hspos, align_len_dvd _ _ (by omega), hq4 (Or.inl rfl), ?_, ?_, ?_⟩
        · rw [vnt_paren]
          exact hq6 []
        · intro c hc
          simp only [List.mem_cons, List.mem_append, List.mem_singleton,
            List.not_mem_nil, or_false] at hc
          rcases hc with rfl | hc | rfl
          · exact ⟨by decide, by decide⟩
          · exact hq8 c hc
          · exact ⟨by decide, by decide⟩
        · intro rest size m
          rw [List.cons_append, List.append_assoc, List.singleton_append]
          rw [@fsW_container '(' (M1 ++ ')' :: rest) size m (by decide) (by decide)
            (by decide) (by decide)]
          rw [vnt_paren, hq6 rest]
          dsimp only
          have hhd : ¬ ('(' = '(' ∧ headChar (M1 ++ ')' :: rest) = ')') := by
            rcases FTs_head hQ with rfl | ⟨c, M2, rfl, h1, h2, h3⟩
            · exact absurd rfl hne
            · rintro ⟨-, hh⟩
              rw [List.cons_append] at hh
              exact h2 hh
          rw [if_neg hhd]
          rw [hq2 (')' :: rest) (Or.inr (Or.inl rfl))]
          dsimp only
          rw [if_neg (by omega : ¬ align_len szo1 a = 0)]
      case dict =>
        obtain ⟨hV1, hV2, hV5, hV6, hV8, hV4⟩ :=
          ihP _ _ _ (by simp only [List.length_cons, List.length_append,
            List.length_singleton] at hlen; omega) hV
        obtain ⟨hk1, hk2, hk3⟩ := fixed_size_align hkf
        have hak1 : 1 ≤ get_basic_alignment k := by rcases hk3 with h | h | h | h <;> omega
        have hmax_eq : max (max 1 (get_basic_alignment k)) aV = max (get_basic_alignment k) aV := by
          rw [Nat.max_eq_right hak1]
        have hspos : 1 ≤ align_len (align_len (align_len 0 (get_basic_alignment k) +
            get_basic_fixed_size k) aV + sV) (max (max 1 (get_basic_alignment k)) aV) :=
          le_trans (by omega) (align_len_ge _ _)
        refine ⟨hspos, ?_, mem_pow2_max hk3 hV5, ?_, ?_, ?_⟩
        · rw [hmax_eq]
          exact align_len_dvd _ _ (by omega)
        · rw [vnt_brace _ hk]
          have happ := vnt_append (t := ['\x7d']) hV6
          rw [List.nil_append] at happ
          rw [happ]
          rfl
        · intro c hc
          simp only [List.mem_cons, List.mem_append, List.mem_singleton,
            List.not_mem_nil, or_false] at hc
          rcases hc with rfl | rfl | hc | rfl
          · exact ⟨by decide, by decide⟩
          · exact ⟨by simpa using fixed_not_var hkf, fixed_not_nul hkf⟩
          · exact hV8 c hc
          · exact ⟨by decide, by decide⟩
        · intro rest size m
          rw [List.cons_append, List.cons_append, List.append_assoc, List.singleton_append]
          rw [@fsW_container '\x7b' (k :: (V ++ '\x7d' :: rest)) size m (by decide) (by decide)
            (by decide) (by decide)]
          rw [vnt_brace _ hk]
          have happ := vnt_append (t := '\x7d' :: rest) hV6
          rw [List.nil_append] at happ
          rw [happ]
          rw [show ∀ aV, dictClose k (VRes.ok ('\x7d' :: rest) aV) =
            VRes.ok rest (max (get_basic_alignment k) aV) from fun aV => rfl]
          dsimp only
          rw [if_neg (by rintro ⟨hcc, -⟩; exact absurd hcc (by decide))]
          rw [fsW_fixed _ _ _ hkf]
          rw [hV4 ('\x7d' :: rest) _ _]
          rw [@fsW_break '\x7d' rest _ _ (by decide) (by decide) (by decide) (Or.inl rfl)]
          dsimp only
          rw [if_neg (by omega :
            ¬ align_len (align_len (align_len 0 (get_basic_alignment k) +
              get_basic_fixed_size k) aV + sV) (max (max 1 (get_basic_alignment k)) aV) = 0)]
    refine ⟨hP, ?_⟩
    intro M m sz al szo n hlen hM
    by_cases hM0 : M = []
    · subst hM0
      obtain ⟨rfl, rfl, rfl⟩ := FTs_nil_inv hM rfl
      refine ⟨⟨le_rfl, le_rfl, fun hc => absurd rfl hc, by simp⟩, fun h => h, ?_, by simp, ?_⟩
      · intro tail
        rw [List.nil_append]
        exact vlw_close tail m
      · intro tail hstop
        rw [List.nil_append]
        rcases tail with _ | ⟨c, t2⟩
        · exact fsW_nil sz m
        · rcases hstop with hc | hc | hc
          · have hc2 : c = '\x00' := hc
            subst hc2
            exact fsW_nul t2 sz m
          · have hc2 : c = ')' := hc
            subst hc2
            exact @fsW_break ')' t2 sz m (by decide) (by decide) (by decide) (Or.inr rfl)
          · have hc2 : c = '\x7d' := hc
            subst hc2
            exact @fsW_break '\x7d' t2 sz m (by decide) (by decide) (by decide) (Or.inl rfl)
    · obtain ⟨T, a, s, M2, n2, hT, hM2, rfl, rfl⟩ := FTs_cons_inv hM hM0
      have hTne := FT_ne_nil hT
      have hTlen : 1 ≤ T.length := by
        cases T with
        | nil => exact absurd rfl hTne
        | cons => simp
      have hlenM2 : M2.length ≤ N := by
        simp only [List.length_append] at hlen
        omega
      have hlenT : T.length ≤ N + 1 := by
        simp only [List.length_append] at hlen
        omega
      obtain ⟨hp1, hp2, hp5, hp6, hp8, hp4⟩ := hP _ _ _ hlenT hT
      obtain ⟨⟨hq1a, hq1b, hq1c, hq1d⟩, hq4, hq6, hq8, hq2⟩ := ihQ _ _ _ _ _ _ hlenM2 hM2
      refine ⟨⟨?_, ?_, ?_, ?_⟩, ?_, ?_, ?_, ?_⟩
      · have := align_len_ge sz a
        omega
      · have := Nat.le_max_left m a
        omega
      · intro hne2
        have := align_len_ge sz a
        omega
      · simp only [List.length_append]
        omega
      · intro hm
        exact hq4 (mem_pow2_max hm hp5)
      · intro tail
        rw [List.append_assoc]
        have hh : headChar (T ++ (M2 ++ ')' :: tail)) ≠ ')' := by
          obtain ⟨c, T2, rfl, h1, h2, h3⟩ := FT_head hT
          rw [List.cons_append]
          exact h2
        rw [vlw_step _ m hh]
        have happ := vnt_append (t := M2 ++ ')' :: tail) hp6
        rw [List.nil_append] at happ
        rw [happ]
        dsimp only
        exact hq6 tail
      · intro c hc
        rcases List.mem_append.mp hc with hc | hc
        · exact hp8 c hc
        · exact hq8 c hc
      · intro tail hstop
        rw [List.append_assoc]
        rw [hp4 (M2 ++ tail) sz m]
        exact hq2 tail hstop

theorem simple_not_var_fixed {c : Char} (hs : simple_types.contains c = true)
    (hv : variable_types.contains c = false) : fixed_types.contains c = true := by
  have hcases : c = 's' ∨ c = 'o' ∨ c = 'g' ∨ c = 'y' ∨ c = 'b' ∨ c = 'n' ∨ c = 'q' ∨
      c = 'i' ∨ c = 'u' ∨ c = 'x' ∨ c = 't' ∨ c = 'd' ∨ c = 'h' := by
    simpa only [simple_types, List.contains_cons, List.contains_nil,
      Bool.or_eq_true, beq_iff_eq, Bool.false_eq_true, or_false] using hs
  rcases hcases with rfl | rfl | rfl | rfl | rfl | rfl | rfl | rfl | rfl | rfl | rfl | rfl | rfl <;>
    first
      | rfl
      | exact absurd hv (by decide)

/-- Inverting the validator into the grammar: a validated complete type all
of whose consumed characters are non-variable is an `FT`; the struct-member
loop likewise yields an `FTs` fold for any starting size accumulator. -/
theorem FT_inv : ∀ f,
    (∀ s r a, validateNT f s = .ok r a →
      ∃ q, s = q ++ r ∧
        ((∀ c ∈ q, variable_types.contains c = false) → ∃ sg, FT q a sg)) ∧
    (∀ s m r a, validateList f s m = .ok r a →
      ∃ q, s = q ++ ')' :: r ∧
        (∀ sz, (∀ c ∈ q, variable_types.contains c = false) →
          ∃ szo k, FTs q m sz a szo k)) := by
  intro f
  induction f with
  | zero => constructor <;> intro s <;> intros <;> simp_all [validateNT, validateList]
  | succ f ih =>
    obtain ⟨ihNT, ihL⟩ := ih
    constructor
    · intro s r a h
      match s with
      | [] => rw [validateNT_nil] at h; cases h
      | c :: rest =>
        by_cases h1 : simple_types.contains c ∨ c = 'v'
        · rw [validateNT_simple _ _ _ h1] at h
          injection h with hr ha
          subst hr; subst ha
          refine ⟨[c], rfl, ?_⟩
          intro hnv
          have hcv := hnv c (by simp)
          rcases h1 with hs | rfl
          · exact ⟨_, FT.basic (simple_not_var_fixed hs hcv)⟩
          · exact absurd hcv (by decide)
        · by_cases h2 : c = 'a'
          · subst h2
            rw [validateNT_a] at h
            obtain ⟨q, rfl, -⟩ := ihNT rest r a h
            refine ⟨'a' :: q, rfl, ?_⟩
            intro hnv
            exact absurd (hnv 'a' (by simp)) (by decide)
          · by_cases h3 : c = '\x7b'
            · subst h3
              match rest with
              | [] => rw [validateNT_brace_nil] at h; cases h
              | k :: rest2 =>
                by_cases hk : simple_types.contains k
                · rw [validateNT_brace f k rest2 hk] at h
                  obtain ⟨a', hv, rfl⟩ := dictClose_eq_ok h
                  obtain ⟨qV, rfl, hFTV⟩ := ihNT rest2 _ _ hv
                  refine ⟨'\x7b' :: k :: (qV ++ ['\x7d']), by simp, ?_⟩
                  intro hnv
                  have hkv : variable_types.contains k = false := hnv k (by simp)
                  obtain ⟨sV, hV⟩ := hFTV (fun c hc => hnv c (by simp [hc]))
                  exact ⟨_, FT.dict hk (simple_not_var_fixed hk hkv) hV⟩
                · rw [validateNT_brace_bad f k rest2 hk] at h; cases h
            · by_cases h4 : c = '('
              · subst h4
                rw [validateNT_paren] at h
                obtain ⟨q, rfl, hFTs⟩ := ihL rest 1 r a h
                refine ⟨'(' :: (q ++ [')']), by simp, ?_⟩
                intro hnv
                by_cases hq0 : q = []
                · subst hq0
                  obtain ⟨szo, k, hFTs0⟩ := hFTs 0 (by simp)
                  obtain ⟨rfl, -, -⟩ := FTs_nil_inv hFTs0 rfl
                  exact ⟨1, by simpa using FT.structE⟩
                · obtain ⟨szo, k, hq⟩ := hFTs 0 (fun c hc => hnv c (by simp [hc]))
                  exact ⟨_, FT.structN hq0 hq⟩
              · rw [validateNT_other f _ _ h1 h2 h3 h4] at h; cases h
    · intro s m r a h
      by_cases hh : headChar s = ')'
      · match s with
        | [] => exact absurd hh (by decide)
        | c :: r0 =>
          have hc : c = ')' := hh
          subst hc
          rw [validateList_close] at h
          injection h with hr ha
          subst hr; subst ha
          exact ⟨[], rfl, fun sz _ => ⟨sz, 0, FTs.nil⟩⟩
      · rw [validateList_step f s m hh] at h
        cases hv : validateNT f s with
        | ok r1 a1 =>
          rw [hv] at h
          obtain ⟨q1, rfl, hFT1⟩ := ihNT _ _ _ hv
          obtain ⟨q2, heq2, hFTs2⟩ := ihL r1 (max m a1) r a h
          subst heq2
          refine ⟨q1 ++ q2, by simp, ?_⟩
          intro sz hnv
          obtain ⟨s1, hq1⟩ := hFT1 (fun c hc => hnv c (List.mem_append_left _ hc))
          obtain ⟨szo, k, hq2⟩ :=
            hFTs2 (align_len sz a1 + s1) (fun c hc => hnv c (List.mem_append_right _ hc))
          exact ⟨szo, k + 1, FTs.cons hq1 hq2⟩
        | fail => rw [hv] at h; cases h
        | nofuel => rw [hv] at h; cases h

theorem vnt_FT {s r : List Char} {a : Nat}
    (h : validate_next_type s = .ok r a) :
    ∃ q, s = q ++ r ∧
      ((∀ c ∈ q, variable_types.contains c = false) → ∃ sg, FT q a sg) :=
  (FT_inv (2 * s.length + 2)).1 s r a h

theorem is_fixed_size_novar :
    ∀ s : List Char, '\x00' ∉ s →
      (_gvariant_is_fixed_size s = true ↔ ∀ c ∈ s, variable_types.contains c = false) := by
  intro s
  induction s with
  | nil => intro h; simp [_gvariant_is_fixed_size]
  | cons c r ih =>
    intro h
    have hc0 : c ≠ '\x00' := fun hc => h (by simp [hc])
    have hr0 : '\x00' ∉ r := fun hc => h (by simp [hc])
    unfold _gvariant_is_fixed_size
    rw [if_neg hc0]
    by_cases hvc : variable_types.contains c = true
    · rw [if_pos hvc]
      constructor
      · intro hfalse; cases hfalse
      · intro hall
        have := hall c (by simp)
        rw [this] at hvc
        cases hvc
    · rw [if_neg hvc]
      rw [ih hr0]
      constructor
      · intro hall c2 hc2
        rcases List.mem_cons.mp hc2 with rfl | hc2
        · simpa using hvc
        · exact hall c2 hc2
      · intro hall c2 hc2
        exact hall c2 (by simp [hc2])

/-- A valid signature without NUL or variable-size characters decomposes as
an `FTs` fold from any starting accumulators. -/
theorem sig_decomp : ∀ n (s : List Char), s.length ≤ n →
    _gvariant_valid_signature s = true →
    (∀ c ∈ s, variable_types.contains c = false) →
    '\x00' ∉ s →
    ∀ m sz, ∃ al szo k, FTs s m sz al szo k := by
  intro n
  induction n with
  | zero =>
    intro s hlen hval hnv hnul
    have hs : s = [] := List.length_eq_zero.mp (Nat.le_zero.mp hlen)
    subst hs
    exact absurd hval (by decide)
  | succ n ih =>
    intro s hlen hval hnv hnul
    rw [valid_signature_step] at hval
    cases hv : validate_next_type s with
    | ok r a =>
      rw [hv] at hval
      dsimp only at hval
      obtain ⟨q, heq, hFT⟩ := vnt_FT hv
      subst heq
      obtain ⟨sg, hq⟩ := hFT (fun c hc => hnv c (List.mem_append_left _ hc))
      by_cases hr : headChar r = '\x00'
      · have hrnil : r = [] := by
          cases r with
          | nil => rfl
          | cons c2 r2 =>
            have hc2 : c2 = '\x00' := hr
            subst hc2
            exact absurd (by simp : ('\x00' : Char) ∈ q ++ '\x00' :: r2) hnul
        subst hrnil
        intro m sz
        exact ⟨_, _, _, FTs.cons hq FTs.nil⟩
      · rw [if_neg hr] at hval
        have hlen2 : r.length ≤ n := by
          have := vnt_ok_length hv
          omega
        intro m sz
        obtain ⟨al, szo, k, hrec⟩ := ih r hlen2 hval
          (fun c hc => hnv c (List.mem_append_right _ hc))
          (fun hc => hnul (List.mem_append_right _ hc))
          (max m a) (align_len sz a + sg)
        exact ⟨al, szo, k + 1, FTs.cons hq hrec⟩
    | fail =>
      rw [hv] at hval
      cases hval
    | nofuel =>
      rw [hv] at hval
      cases hval

theorem FTs_numChildren : ∀ N (M : List Char) m sz al szo k, M.length ≤ N →
    FTs M m sz al szo k → M ≠ [] → numChildrenW M = some k := by
  intro N
  induction N with
  | zero =>
    intro M m sz al szo k hlen hM hne
    exact absurd (List.length_eq_zero.mp (Nat.le_zero.mp hlen)) hne
  | succ N ih =>
    intro M m sz al szo k hlen hM hne
    obtain ⟨T, a, s, M2, k2, hT, hM2, rfl, rfl⟩ := FTs_cons_inv hM hne
    obtain ⟨-, -, -, hp6, -, -⟩ := (FT_main T.length).1 T a s le_rfl hT
    have happ := vnt_append (t := M2) hp6
    rw [List.nil_append] at happ
    rw [numChildrenW_step, happ]
    dsimp only
    by_cases hM20 : M2 = []
    · subst hM20
      obtain ⟨-, -, rfl⟩ := FTs_nil_inv hM2 rfl
      rw [if_pos (show headChar ([] : List Char) = '\x00' from rfl)]
    · have hTne := FT_ne_nil hT
      have hT1 : 1 ≤ T.length := by
        cases T with
        | nil => exact absurd rfl hTne
        | cons => simp
      have hhd : headChar M2 ≠ '\x00' := by
        rcases FTs_head hM2 with rfl | ⟨c, M3, rfl, h1, h2, h3⟩
        · exact absurd rfl hM20
        · exact h1
      rw [if_neg hhd]
      rw [ih M2 _ _ _ _ _ (by simp only [List.length_append] at hlen; omega) hM2 hM20]
      rfl

theorem FTs_getAlign : ∀ N (M : List Char) m sz al szo k, M.length ≤ N →
    FTs M m sz al szo k → (m = 1 ∨ m = 2 ∨ m = 4 ∨ m = 8) →
    ∀ tail, headChar tail = '\x00' →
      getAlignW (M ++ tail) m = al := by
  intro N
  induction N with
  | zero =>
    intro M m sz al szo k hlen hM hm tail htail
    have hM0 : M = [] := List.length_eq_zero.mp (Nat.le_zero.mp hlen)
    subst hM0
    obtain ⟨rfl, -, -⟩ := FTs_nil_inv hM rfl
    rw [List.nil_append, getAlignW_step, if_pos (Or.inl htail)]
  | succ N ih =>
    intro M m sz al szo k hlen hM hm tail htail
    by_cases hM0 : M = []
    · subst hM0
      obtain ⟨rfl, -, -⟩ := FTs_nil_inv hM rfl
      rw [List.nil_append, getAlignW_step, if_pos (Or.inl htail)]
    · obtain ⟨T, a, s, M2, k2, hT, hM2, rfl, rfl⟩ := FTs_cons_inv hM hM0
      obtain ⟨-, -, hp5, hp6, -, -⟩ := (FT_main T.length).1 T a s le_rfl hT
      obtain ⟨⟨-, hmal, -, -⟩, hq4, -, -, -⟩ :=
        (FT_main M2.length).2 M2 _ _ _ _ _ le_rfl hM2
      have hTne := FT_ne_nil hT
      have hT1 : 1 ≤ T.length := by
        cases T with
        | nil => exact absurd rfl hTne
        | cons => simp
      rw [List.append_assoc]
      by_cases hm8 : m = 8
      · subst hm8
        have hal : al = 8 := by
          have h2 := hq4 (mem_pow2_max (Or.inr (Or.inr (Or.inr rfl))) hp5)
          have h3 : (8 : Nat) ≤ max 8 a := Nat.le_max_left 8 a
          rcases h2 with h | h | h | h <;> omega
        rw [getAlignW_step, if_pos (Or.inr rfl), hal]
      · have hhd : headChar (T ++ (M2 ++ tail)) ≠ '\x00' := by
          obtain ⟨c, T2, rfl, h1, h2, h3⟩ := FT_head hT
          rw [List.cons_append]
          exact h1
        have happ := vnt_append (t := M2 ++ tail) hp6
        rw [List.nil_append] at happ
        rw [getAlignW_step, if_neg (by rintro (h | h) <;> [exact hhd h; exact hm8 h]), happ]
        dsimp only
        exact ih M2 _ _ _ _ _ (by simp only [List.length_append] at hlen; omega) hM2
          (mem_pow2_max hm hp5) tail htail

theorem FT_fixed_size {T : List Char} {a s : Nat} (h : FT T a s) :
    _gvariant_get_fixed_size T = s := by
  obtain ⟨hp1, hp2, hp5, hp6, hp8, hp4⟩ := (FT_main T.length).1 T a s le_rfl h
  have ha1 : 1 ≤ a := by rcases hp5 with h5 | h5 | h5 | h5 <;> omega
  have hw := hp4 [] 0 1
  rw [List.append_nil] at hw
  unfold _gvariant_get_fixed_size
  rw [hw, fsW_nil, align_len_zero, Nat.zero_add, Nat.max_eq_right ha1,
    align_len_eq_of_dvd hp2]
  rfl

theorem FT_is_fixed {T : List Char} {a s : Nat} (h : FT T a s) :
    _gvariant_is_fixed_size T = true := by
  obtain ⟨-, -, -, -, hp8, -⟩ := (FT_main T.length).1 T a s le_rfl h
  have hnul : '\x00' ∉ T := fun hc => (hp8 _ hc).2 rfl
  exact (is_fixed_size_novar T hnul).mpr (fun c hc => (hp8 c hc).1)

/-- The first init loop (`parseChildren`) over a fixed-size `FTs`
decomposition yields all-fixed children, and the second loop (`sizeLoop`)
walks their end offsets without error or data reads as long as the frame is
at least the accumulated size. -/
theorem FTs_parse : ∀ N (FULL M : List Char) m sz al szo k pIdx,
    M.length ≤ N → FTs M m sz al szo k → FULL.drop pIdx = M →
    ∃ cs, parseChildren FULL k pIdx = some cs ∧
      (∀ ci ∈ cs, ci.fixedSize = true) ∧
      (∀ L data lo v, szo ≤ L →
        sizeLoop data L (offset_length L 0) lo cs false sz v 0 = (true, [])) ∧
      (∀ L data lo v, szo ≤ L → sz = 0 →
        sizeLoop data L (offset_length L 0) lo cs true sz v 0 = (true, [])) := by
  intro N
  induction N with
  | zero =>
    intro FULL M m sz al szo k pIdx hlen hM hdrop
    have hM0 : M = [] := List.length_eq_zero.mp (Nat.le_zero.mp hlen)
    subst hM0
    obtain ⟨-, rfl, rfl⟩ := FTs_nil_inv hM rfl
    exact ⟨[], rfl, by simp, fun L data lo v hL => rfl, fun L data lo v hL h0 => rfl⟩
  | succ N ih =>
    intro FULL M m sz al szo k pIdx hlen hM hdrop
    by_cases hM0 : M = []
    · subst hM0
      obtain ⟨-, rfl, rfl⟩ := FTs_nil_inv hM rfl
      exact ⟨[], rfl, by simp, fun L data lo v hL => rfl, fun L data lo v hL h0 => rfl⟩
    · obtain ⟨T, a, s, M2, k2, hT, hM2, rfl, rfl⟩ := FTs_cons_inv hM hM0
      obtain ⟨hp1, hp2, hp5, hp6, hp8, hp4⟩ := (FT_main T.length).1 T a s le_rfl hT
      obtain ⟨⟨hq1a, -, -, -⟩, -, -, -, -⟩ := (FT_main M2.length).2 M2 _ _ _ _ _ le_rfl hM2
      have hTne := FT_ne_nil hT
      have hT1 : 1 ≤ T.length := by
        cases T with
        | nil => exact absurd rfl hTne
        | cons => simp
      have hcons : FULL.length - pIdx - M2.length = T.length := by
        have hdl := congrArg List.length hdrop
        simp only [List.length_drop, List.length_append] at hdl
        omega
      have hdrop2 : FULL.drop (pIdx + T.length) = M2 := by
        rw [← List.drop_drop, hdrop, List.drop_left]
      obtain ⟨cs2, hpc2, hfix2, hsz2, -⟩ :=
        ih FULL M2 _ _ al szo k2 (pIdx + T.length)
          (by simp only [List.length_append] at hlen; omega) hM2 hdrop2
      have happ := vnt_append (t := M2) hp6
      rw [List.nil_append] at happ
      have hpc : parseChildren FULL (k2 + 1) pIdx =
          some ({ fixedSize := true, alignment := a, endOff := s } :: cs2) := by
        unfold parseChildren
        rw [hdrop, happ]
        dsimp only
        rw [hcons, List.take_left, FT_is_fixed hT, FT_fixed_size hT, hpc2]
        rfl
      refine ⟨{ fixedSize := true, alignment := a, endOff := s } :: cs2, hpc, ?_, ?_, ?_⟩
      · intro ci hci
        rcases List.mem_cons.mp hci with rfl | hci
        · rfl
        · exact hfix2 ci hci
      · intro L data lo v hL
        unfold sizeLoop
        dsimp only
        have he : ¬ s + align_len sz a > L := by
          have := align_len_ge sz a
          omega
        rw [if_neg he]
        rw [show s + align_len sz a = align_len sz a + s from by omega]
        exact hsz2 L data lo v hL
      · intro L data lo v hL h0
        subst h0
        unfold sizeLoop
        dsimp only
        have hs2 := hsz2 L data lo v hL
        rw [align_len_zero, Nat.zero_add] at hs2
        exact hs2

/-- `next_item` on a struct reader whose remaining signature window starts
with the fixed-size complete type `T`: it succeeds at the aligned position,
reads no data, advances `sig_pos` past `T` and `pos` past the child. -/
theorem next_item_fixed_step (msg : Nat) (s0 : List Char) (p0 : Nat) (d : List Nat)
    (L sz : Nat) (off : Option Int) (T M2 : List Char) (a s : Nat)
    (hdrop : s0.drop p0 = T ++ M2)
    (h255 : s0.length ≤ 255)
    (hT : FT T a s)
    (hlt : align_len sz a < L) :
    next_item { message := msg, sigStart := s0, sigLen := s0.length, sigPos := p0,
                data := d, len := L, pos := sz, containerType := .struct, offsets := off } =
      (.ok (align_len sz a) s,
       { message := msg, sigStart := s0, sigLen := s0.length, sigPos := p0 + T.length,
         data := d, len := L, pos := align_len sz a + s, containerType := .struct,
         offsets := off }) := by
  have hTne := FT_ne_nil hT
  have hT1 : 1 ≤ T.length := by
    cases T with
    | nil => exact absurd rfl hTne
    | cons => simp
  have hdl := congrArg List.length hdrop
  simp only [List.length_drop, List.length_append] at hdl
  have hp0 : p0 < s0.length := by omega
  obtain ⟨-, -, -, hp6, -, -⟩ := (FT_main T.length).1 T a s le_rfl hT
  have happ := vnt_append (t := M2) hp6
  rw [List.nil_append] at happ
  unfold next_item
  dsimp only
  rw [if_neg (by omega : ¬ s0.length < p0), if_neg (by omega : ¬ 256 ≤ s0.length - p0)]
  rw [hdrop, show s0.length - p0 = (T ++ M2).length from by
    simp only [List.length_append]; omega]
  rw [List.take_length, happ]
  dsimp only
  rw [show (T ++ M2).length - M2.length = T.length from by
    simp only [List.length_append]; omega]
  rw [List.take_left]
  unfold next_item_go
  dsimp only
  rw [FT_is_fixed hT]
  rw [if_neg (by decide : ¬ (ContainerType.struct = ContainerType.array))]
  dsimp only
  rw [FT_fixed_size hT]
  rw [if_neg (by omega : ¬ L ≤ align_len sz a)]
  rw [if_pos rfl]

theorem FTs_itemsAll : ∀ N (M : List Char) m sz al szo k, M.length ≤ N →
    FTs M m sz al szo k →
    ∀ (msg : Nat) (s0 : List Char) (p0 : Nat) (d : List Nat) (L : Nat) (off : Option Int),
      s0.drop p0 = M → s0.length ≤ 255 → szo ≤ L →
      itemsAll k { message := msg, sigStart := s0, sigLen := s0.length, sigPos := p0,
                   data := d, len := L, pos := sz, containerType := .struct,
                   offsets := off } = true := by
  intro N
  induction N with
  | zero =>
    intro M m sz al szo k hlen hM msg s0 p0 d L off hdrop h255 hL
    have hM0 : M = [] := List.length_eq_zero.mp (Nat.le_zero.mp hlen)
    subst hM0
    obtain ⟨-, -, rfl⟩ := FTs_nil_inv hM rfl
    rfl
  | succ N ih =>
    intro M m sz al szo k hlen hM msg s0 p0 d L off hdrop h255 hL
    by_cases hM0 : M = []
    · subst hM0
      obtain ⟨-, -, rfl⟩ := FTs_nil_inv hM rfl
      rfl
    · obtain ⟨T, a, s, M2, k2, hT, hM2, rfl, rfl⟩ := FTs_cons_inv hM hM0
      obtain ⟨hp1, -, -, -, -, -⟩ := (FT_main T.length).1 T a s le_rfl hT
      obtain ⟨⟨hq1a, -, -, -⟩, -, -, -, -⟩ := (FT_main M2.length).2 M2 _ _ _ _ _ le_rfl hM2
      have hTne := FT_ne_nil hT
      have hT1 : 1 ≤ T.length := by
        cases T with
        | nil => exact absurd rfl hTne
        | cons => simp
      have hdrop2 : s0.drop (p0 + T.length) = M2 := by
        rw [← List.drop_drop, hdrop, List.drop_left]
      have hlt : align_len sz a < L := by
        have := align_len_ge sz a
        omega
      unfold itemsAll
      rw [next_item_fixed_step msg s0 p0 d L sz off T M2 a s hdrop h255 hT hlt]
      dsimp only
      exact ih M2 _ _ _ _ _ (by simp only [List.length_append] at hlen; omega) hM2
        msg s0 (p0 + T.length) d L off hdrop2 h255 hL

theorem numVariableOf_zero {cs : List ChildInfo}
    (h : ∀ ci ∈ cs, ci.fixedSize = true) : numVariableOf cs = 0 := by
  unfold numVariableOf
  rw [List.filter_eq_nil_iff.mpr ?_]
  · rfl
  · intro ci hci
    have hfx := h ci (List.dropLast_subset _ hci)
    simp [hfx]

/-- C5 (amended): for a valid NUL-free fixed-size signature of at most 255
characters, the computed fixed size is an exact multiple of the computed
alignment, and a reader initialized over ANY data buffer with a frame of
exactly the fixed size succeeds (reading no bytes: the recorded read list is
empty) and extracts all `num_children` children through `next_item` without
error.  The claim as stated, without the length bound, is refuted by
the counterexample below: at 256 signature characters the C init copies the
signature into the local `char subsig[256]` including the terminating NUL,
overflowing the buffer (modelled `ub`). -/
theorem C5_fixed_size_agreement (s : List Char) (data : List Nat)
    (hval : _gvariant_valid_signature s = true)
    (hfix : _gvariant_is_fixed_size s = true)
    (hnul : '\x00' ∉ s)
    (hlen : s.length ≤ 255) :
    _gvariant_get_alignment s ∣ _gvariant_get_fixed_size s ∧
    ∃ (it : Iter) (k : Nat),
      _gvariant_iter_init 0 s none data (_gvariant_get_fixed_size s) =
        (.ok it, []) ∧
      _gvariant_num_children s = (k : Int) ∧ itemsAll k it = true := by
  have hnovar : ∀ c ∈ s, variable_types.contains c = false :=
    (is_fixed_size_novar s hnul).mp hfix
  obtain ⟨al, szo, k, hFTs⟩ := sig_decomp s.length s le_rfl hval hnovar hnul 1 0
  obtain ⟨⟨hsz0, h1al, -, hkle⟩, -, -, -, hq2⟩ :=
    (FT_main s.length).2 s 1 0 al szo k le_rfl hFTs
  have hsne : s ≠ [] := by
    intro h0
    subst h0
    exact absurd hval (by decide)
  have hfsz : _gvariant_get_fixed_size s = align_len szo al := by
    have := hq2 [] (Or.inl rfl)
    rw [List.append_nil] at this
    unfold _gvariant_get_fixed_size
    rw [this]
    rfl
  have halign : _gvariant_get_alignment s = al := by
    have := FTs_getAlign s.length s 1 0 al szo k le_rfl hFTs (Or.inl rfl) [] rfl
    rw [List.append_nil] at this
    exact this
  have hnum : _gvariant_num_children s = (k : Int) := by
    unfold _gvariant_num_children
    rw [FTs_numChildren s.length s 1 0 al szo k le_rfl hFTs hsne]
  have htw : (s.takeWhile (· ≠ '\x00')).length = s.length := by
    rw [takeWhile_eq_self_of _ s (fun x hx => by
      simp only [decide_eq_true_eq]
      intro heq
      exact hnul (heq ▸ hx))]
  obtain ⟨cs, hpc, hfixcs, -, hszT⟩ :=
    FTs_parse s.length s s 1 0 al szo k 0 le_rfl hFTs (List.drop_zero s)
  have hinit : gvariant_iter_init_internal 0 .struct s none data (align_len szo al) =
      (.ok { message := 0, sigStart := s, sigLen := s.length, sigPos := 0,
             data := data, len := align_len szo al, pos := 0,
             containerType := .struct, offsets := none }, []) := by
    unfold gvariant_iter_init_internal
    dsimp only
    rw [htw]
    rw [if_neg (by omega : ¬ 256 ≤ s.length)]
    rw [List.take_length]
    rw [htw]
    rw [hnum]
    rw [show (((k : Int)).emod 256).toNat = k from by
      rw [show ((k : Int)).emod 256 = (k : Int) % 256 from rfl]
      rw [Int.emod_eq_of_lt (by positivity) (by exact_mod_cast (by omega : k < 256))]
      exact Int.toNat_natCast k]
    rw [hpc]
    dsimp only
    rw [numVariableOf_zero hfixcs]
    rw [if_neg (by omega : ¬ align_len szo al < 0 * offset_length (align_len szo al) 0)]
    rw [hszT (align_len szo al) data (align_len szo al - 0 * offset_length (align_len szo al) 0)
      0 (align_len_ge szo al) rfl]
    dsimp only
    rw [if_neg (by decide : ¬ (ContainerType.struct = ContainerType.array))]
    rfl
  refine ⟨by rw [halign, hfsz]; exact align_len_dvd szo al (by omega), ?_⟩
  refine ⟨{ message := 0, sigStart := s, sigLen := s.length, sigPos := 0,
            data := data, len := align_len szo al, pos := 0,
            containerType := .struct, offsets := none }, k, ?_, hnum, ?_⟩
  · unfold _gvariant_iter_init
    rw [hfsz]
    exact hinit
  · have := FTs_itemsAll s.length s 1 0 al szo k le_rfl hFTs 0 s 0 data
      (align_len szo al) none (List.drop_zero s) hlen (align_len_ge szo al)
    exact this

set_option maxRecDepth 100000 in
/-- C5 counterexample: the 256-character signature `yyy...y` is valid and
fixed-size (with fixed size 256), yet initializing a reader over a frame of
exactly that length does not extract anything: the C init copies the
signature and its terminating NUL into the local `char subsig[256]`, writing
257 bytes (undefined behavior, modelled as `ub`), so the claim's "reading a
frame of exactly that length extracts all children without error" fails as
stated. -/
theorem C5_counterexample :
    _gvariant_valid_signature (List.replicate 256 'y') = true ∧
    _gvariant_is_fixed_size (List.replicate 256 'y') = true ∧
    _gvariant_get_fixed_size (List.replicate 256 'y') = 256 ∧
    (_gvariant_iter_init 0 (List.replicate 256 'y') none
        (List.replicate 256 0) 256).1 = InitRes.ub := by
  decide

theorem C5_fixed_size_agreement_witness :
    _gvariant_get_alignment [Char.ofNat 105] ∣ _gvariant_get_fixed_size [Char.ofNat 105] :=
  (C5_fixed_size_agreement [Char.ofNat 105] [] (by decide) (by decide) (by decide)
    (by decide)).1
